import Mathlib

/-!
Formal model of the citation-graph core of the repository
(main_grafo.py): text normalization and similarity scoring,
the directed weighted graph structure, similarity-driven graph
construction, Dijkstra shortest paths, path reconstruction,
Kosaraju strongly connected components and title search.

Modelling conventions.

Numbers: Python floats are modelled by exact rationals.  Edge weights,
similarity scores and Dijkstra distances are elements of the rational
numbers, with +infinity modelled by the top element of WithTop.

Strings: Python strings are modelled as lists of characters.  The
Unicode NFKD decomposition plus removal of combining marks performed by
the first step of the normalizer is the identity on the ASCII range and
is modelled as the identity; Char.toLower likewise agrees with Python
lowercasing on ASCII.  All remaining steps (the regex that maps every
run of characters outside lowercase a-z, 0-9 to a single space, the
whitespace collapse and the final strip) are modelled exactly.

Dictionaries: Python dicts are modelled as insertion-ordered
association lists with first-key-wins lookup; assignment updates the
first matching key in place or appends a new binding at the end, which
matches the insertion-order semantics of Python dicts.  The defaultdict
list-append used for adjacency is modelled by dappend.

Loops and recursion: the recursive depth-first traversals and the
Dijkstra work-queue loop are given an explicit fuel argument and return
an Option, with none meaning that the fuel ran out (or, for Dijkstra, a
missing dictionary key, i.e. a Python KeyError).  Theorems about runs
take the successful result as a hypothesis, and witnesses show such runs
exist.  The Dijkstra state additionally carries a settled list, a pure
observer recording the (distance, node) pairs popped and not skipped as
stale, in the order they are processed; it is written to but never read
by the algorithm, and is used only to state the monotonicity property.
-/

/-- Python strings are modelled as lists of characters. -/
abbrev Str := List Char

/-- Characters kept by the normalizer character class, i.e. the regex
class a-z, 0-9 applied after lowercasing. -/
def alnumLower (c : Char) : Bool :=
  (('a' ≤ c && c ≤ 'z') || ('0' ≤ c && c ≤ '9'))

/-- Whitespace characters stripped by the Python str.strip used in the
author and keyword splitters. -/
def wsChar (c : Char) : Bool :=
  (c = ' ' || c = '\t' || c = '\n' || c = '\r')

/-- Python str.strip: drop leading and trailing whitespace. -/
def pstrip (s : Str) : Str :=
  ((s.dropWhile wsChar).reverse.dropWhile wsChar).reverse

/-- Model of the normalizer of main_grafo.py (the function that strips
diacritics, lowercases, replaces every non-alphanumeric run with a
single space, collapses whitespace and trims).  The NFKD decomposition
and combining-mark removal are the identity on ASCII and are modelled
as the identity.  Replacing every non-alphanumeric character by a space
and then joining the nonempty space-separated words with single spaces
is exactly the composition of the two regex substitutions followed by
strip. -/
def normText (s : Str) : Str :=
  if s = [] then []
  else
    let s1 := s.map Char.toLower
    let s2 := s1.map (fun c => if alnumLower c then c else ' ')
    List.intercalate [' '] ((s2.splitOn ' ').filter (· ≠ []))

/-- Model of the tokenizer: split an already-normalized text on spaces
into the set of its words.  Normalized text contains no whitespace other
than single spaces, so splitting on the space character agrees with
Python str.split(). -/
def tokensOf (s : Str) : Finset Str :=
  if s = [] then ∅ else ((s.splitOn ' ').filter (· ≠ [])).toFinset

/-- Jaccard similarity of two token sets, with the explicit convention
that two empty sets have similarity 0. -/
def jaccard (a b : Finset Str) : ℚ :=
  if a = ∅ ∧ b = ∅ then 0
  else if (a ∪ b).card = 0 then 0
  else ((a ∩ b).card : ℚ) / ((a ∪ b).card : ℚ)

/-- Split a delimited author string on semicolons or commas, strip each
part, drop empty parts, and normalize each remaining part.  As in the
source, a part whose normalization is empty is kept as the empty
string. -/
def splitAuthors (s : Str) : List Str :=
  if s = [] then []
  else
    let parts := (((s.map (fun c => if c = ';' ∨ c = ',' then ';' else c)).splitOn ';').map
      pstrip).filter (· ≠ [])
    parts.map normText

/-- Split a delimited keyword string on semicolons, commas or vertical
bars, strip each part, drop empty parts, and normalize each remaining
part. -/
def splitKeywords (s : Str) : List Str :=
  if s = [] then []
  else
    let parts := (((s.map (fun c => if c = ';' ∨ c = ',' ∨ c = '|' then ';' else c)).splitOn
      ';').map pstrip).filter (· ≠ [])
    parts.map normText

/-- An article record: the six metadata fields copied into each graph
node by the builder. -/
structure Art where
  title : Str
  authors : Str
  keywords : Str
  year : Str
  doi : Str
  url : Str
deriving DecidableEq, Repr, Inhabited

/-- Combined similarity score of two articles: one half title Jaccard,
three tenths author Jaccard, one fifth keyword Jaccard. -/
def similitudArticulos (a b : Art) : ℚ :=
  let simTitle := jaccard (tokensOf (normText a.title)) (tokensOf (normText b.title))
  let simAuth := jaccard (splitAuthors a.authors).toFinset (splitAuthors b.authors).toFinset
  let simKw := jaccard (splitKeywords a.keywords).toFinset (splitKeywords b.keywords).toFinset
  (1/2 : ℚ) * simTitle + (3/10 : ℚ) * simAuth + (1/5 : ℚ) * simKw

theorem jaccard_nonneg (a b : Finset Str) : 0 ≤ jaccard a b := by
  unfold jaccard
  split
  · exact le_refl 0
  · split
    · exact le_refl 0
    · positivity

theorem jaccard_le_one (a b : Finset Str) : jaccard a b ≤ 1 := by
  unfold jaccard
  split
  · exact zero_le_one
  · split
    · exact zero_le_one
    · rename_i h hc
      rw [div_le_one]
      · exact_mod_cast Finset.card_le_card (Finset.inter_subset_union)
      · exact_mod_cast Nat.pos_of_ne_zero hc

theorem similitud_nonneg (a b : Art) : 0 ≤ similitudArticulos a b := by
  unfold similitudArticulos
  have h1 := jaccard_nonneg (tokensOf (normText a.title)) (tokensOf (normText b.title))
  have h2 := jaccard_nonneg (splitAuthors a.authors).toFinset (splitAuthors b.authors).toFinset
  have h3 := jaccard_nonneg (splitKeywords a.keywords).toFinset (splitKeywords b.keywords).toFinset
  positivity

theorem similitud_le_one (a b : Art) : similitudArticulos a b ≤ 1 := by
  unfold similitudArticulos
  have h1 := jaccard_le_one (tokensOf (normText a.title)) (tokensOf (normText b.title))
  have h2 := jaccard_le_one (splitAuthors a.authors).toFinset (splitAuthors b.authors).toFinset
  have h3 := jaccard_le_one (splitKeywords a.keywords).toFinset (splitKeywords b.keywords).toFinset
  nlinarith [jaccard_nonneg (tokensOf (normText a.title)) (tokensOf (normText b.title)),
    jaccard_nonneg (splitAuthors a.authors).toFinset (splitAuthors b.authors).toFinset,
    jaccard_nonneg (splitKeywords a.keywords).toFinset (splitKeywords b.keywords).toFinset]

/-- Python dict assignment on an insertion-ordered association list:
update the first binding of the key in place, or append a new binding
at the end. -/
def aset {α : Type} : List (ℕ × α) → ℕ → α → List (ℕ × α)
  | [], k, v => [(k, v)]
  | (k', v') :: rest, k, v =>
      if k' = k then (k, v) :: rest else (k', v') :: aset rest k v

/-- Python defaultdict(list) item append: append x to the list bound to
key k, creating the binding with a fresh list if the key is absent. -/
def dappend {α : Type} : List (ℕ × List α) → ℕ → α → List (ℕ × List α)
  | [], k, x => [(k, [x])]
  | (k', xs) :: rest, k, x =>
      if k' = k then (k, xs ++ [x]) :: rest else (k', xs) :: dappend rest k x

/-- The directed weighted graph: an insertion-ordered node-metadata map
and an adjacency map from node id to its ordered outgoing edge list. -/
structure GrafoDirigido where
  nodos : List (ℕ × Art)
  adj : List (ℕ × List (ℕ × ℚ))
deriving DecidableEq, Repr

namespace GrafoDirigido

/-- Insert or update a node with its metadata. -/
def agregarNodo (G : GrafoDirigido) (nodeId : ℕ) (data : Art) : GrafoDirigido :=
  { G with nodos := aset G.nodos nodeId data }

/-- Append the directed edge u to v with the given weight to the
adjacency list of u. -/
def agregarArista (G : GrafoDirigido) (u v : ℕ) (peso : ℚ) : GrafoDirigido :=
  { G with adj := dappend G.adj u (v, peso) }

/-- Outgoing neighbor list of u, empty when u has no outgoing edges;
models dict.get with default, which does not mutate the dictionary. -/
def vecinos (G : GrafoDirigido) (u : ℕ) : List (ℕ × ℚ) :=
  (G.adj.lookup u).getD []

/-- The node ids in insertion order. -/
def nodosIds (G : GrafoDirigido) : List ℕ :=
  G.nodos.map (·.1)

end GrafoDirigido

/-- Stable descending insertion: x moves past strictly greater scores
and lands before the first element whose score is less than or equal to
its own, so that earlier-input elements precede equal-score later ones. -/
def insDesc (x : ℕ × ℚ) : List (ℕ × ℚ) → List (ℕ × ℚ)
  | [] => [x]
  | y :: ys => if x.2 < y.2 then y :: insDesc x ys else x :: y :: ys

/-- Stable sort by descending score, modelling the Python stable sort
with key the similarity and reverse set. -/
def sortDesc (l : List (ℕ × ℚ)) : List (ℕ × ℚ) :=
  l.foldr insDesc []

/-- Candidate edge targets of node i: every other index j in scan order
whose similarity with article i reaches the threshold, paired with that
similarity. -/
def candidatos (articulos : List Art) (umbral : ℚ) (i : ℕ) : List (ℕ × ℚ) :=
  (List.range articulos.length).filterMap (fun j =>
    if i = j then none
    else
      let sim := similitudArticulos (articulos.getD i default) (articulos.getD j default)
      if umbral ≤ sim then some (j, sim) else none)

/-- Build the directed weighted graph from a list of articles: one node
per article with id its index, then for every node the edges to its
top-K candidates by descending similarity, each with weight one minus
the similarity. -/
def construirGrafo (articulos : List Art) (umbral : ℚ) (maxSalientes : ℕ) : GrafoDirigido :=
  let G0 : GrafoDirigido := ⟨[], []⟩
  let G1 := articulos.enum.foldl (fun G p => G.agregarNodo p.1 p.2) G0
  (List.range articulos.length).foldl (fun G i =>
    let cand := candidatos articulos umbral i
    let top := (sortDesc cand).take maxSalientes
    top.foldl (fun G2 js => G2.agregarArista i js.1 (1 - js.2)) G) G1

/-- Directed edge relation of the graph: u has some outgoing edge to v. -/
def Edge (G : GrafoDirigido) (u v : ℕ) : Prop :=
  ∃ w, (v, w) ∈ G.vecinos u

instance (G : GrafoDirigido) (u v : ℕ) : Decidable (Edge G u v) :=
  decidable_of_iff (∃ p ∈ G.vecinos u, p.1 = v) (by
    constructor
    · rintro ⟨⟨v', w⟩, hp, rfl⟩
      exact ⟨w, by simpa using hp⟩
    · rintro ⟨w, hw⟩
      exact ⟨(v, w), hw, rfl⟩)

/-- Reachability along directed edges. -/
def Reach (G : GrafoDirigido) : ℕ → ℕ → Prop :=
  Relation.ReflTransGen (Edge G)

/-- Mutual reachability: each of the two nodes reaches the other. -/
def Mutual (G : GrafoDirigido) (u v : ℕ) : Prop :=
  Reach G u v ∧ Reach G v u

/-- State of the Dijkstra computation: the distance map, the predecessor
map, the priority queue as a bag of (distance, node) entries, and the
settled observer list described in the module header. -/
structure DState where
  dist : List (ℕ × WithTop ℚ)
  prev : List (ℕ × Option ℕ)
  pq : List (ℚ × ℕ)
  settled : List (ℚ × ℕ)
deriving DecidableEq, Repr

/-- Lexicographic order on priority-queue entries, matching Python tuple
comparison of (distance, node). -/
def pqLe (a b : ℚ × ℕ) : Prop :=
  a.1 < b.1 ∨ (a.1 = b.1 ∧ a.2 ≤ b.2)

instance (a b : ℚ × ℕ) : Decidable (pqLe a b) := by
  unfold pqLe
  infer_instance

/-- Extract a minimal entry (by the tuple order used by the Python heap)
together with the remaining entries; none on an empty queue. -/
def popMin : List (ℚ × ℕ) → Option ((ℚ × ℕ) × List (ℚ × ℕ))
  | [] => none
  | e :: rest =>
    match popMin rest with
    | none => some (e, [])
    | some (m, rest') => if pqLe e m then some (e, rest) else some (m, e :: rest')

/-- Relax the outgoing edges of the settled node u, popped at finite
distance du: for each edge to v of weight w, if du + w improves the
known distance of v, update distance and predecessor and push the new
entry.  A missing distance key (an edge into a node absent from the
distance map) is a Python KeyError, modelled as none. -/
def relaxEdges (u : ℕ) (du : ℚ) : List (ℕ × ℚ) → DState → Option DState
  | [], st => some st
  | (v, w) :: rest, st =>
    match st.dist.lookup v with
    | none => none
    | some dv =>
      let alt : ℚ := du + w
      if (alt : WithTop ℚ) < dv then
        relaxEdges u du rest
          { st with
            dist := aset st.dist v ((alt : ℚ) : WithTop ℚ),
            prev := aset st.prev v (some u),
            pq := st.pq ++ [(alt, v)] }
      else relaxEdges u du rest st

/-- The main Dijkstra loop: pop a minimal entry; skip it if stale
(popped distance worse than the recorded one); otherwise record it as
settled and relax the outgoing edges.  Terminates normally when the
queue is empty; returns none if the fuel runs out or a distance lookup
fails. -/
def dijkstraLoop (G : GrafoDirigido) (fuel : ℕ) (st : DState) : Option DState :=
  match popMin st.pq, fuel with
    | none, _ => some st
    | some _, 0 => none
    | some ((d, u), rest), fuel' + 1 =>
      match st.dist.lookup u with
      | none => none
      | some du =>
        if du < ((d : ℚ) : WithTop ℚ) then dijkstraLoop G fuel' { st with pq := rest }
        else
          match relaxEdges u d (G.vecinos u)
              { st with pq := rest, settled := st.settled ++ [(d, u)] } with
          | none => none
          | some st' => dijkstraLoop G fuel' st'

/-- Dijkstra from a source: distances start at infinity for every node,
the source entry is assigned distance zero (inserting the key if the
source is not a node), predecessors start at none, and the queue starts
with the single source entry. -/
def dijkstra (G : GrafoDirigido) (origen : ℕ) (fuel : ℕ) : Option DState :=
  let dist0 := G.nodosIds.map (fun u => (u, (⊤ : WithTop ℚ)))
  let prev0 := G.nodosIds.map (fun u => (u, (none : Option ℕ)))
  let dist1 := aset dist0 origen ((0 : ℚ) : WithTop ℚ)
  dijkstraLoop G fuel { dist := dist1, prev := prev0, pq := [((0 : ℚ), origen)], settled := [] }

/-- Walk of the predecessor map: append the current node and follow its
predecessor link until none, then reverse.  none models either a missing
key (KeyError) or fuel exhaustion on a cyclic predecessor map. -/
def reconGo (prev : List (ℕ × Option ℕ)) : ℕ → Option ℕ → List ℕ → Option (List ℕ)
  | _, none, camino => some camino.reverse
  | 0, some _, _ => none
  | fuel + 1, some cur, camino =>
    match prev.lookup cur with
    | none => none
    | some nxt => reconGo prev fuel nxt (camino ++ [cur])

/-- Reconstruct the path from the source to destino by walking the
predecessor map backward and reversing. -/
def reconstruirCamino (prev : List (ℕ × Option ℕ)) (destino : ℕ) (fuel : ℕ) :
    Option (List ℕ) :=
  reconGo prev fuel (some destino) []

/-- Scan of the node map in insertion order collecting up to k nodes
whose normalized title contains the already-normalized fragment; the
scan stops as soon as k results have been collected. -/
def buscarGo (frag : Str) (k : ℕ) : List (ℕ × Art) → List (ℕ × Str) → List (ℕ × Str)
  | [], acc => acc
  | (i, data) :: rest, acc =>
    let tituloNorm := normText data.title
    if frag ≠ [] ∧ frag <:+: tituloNorm then
      let acc' := acc ++ [(i, data.title)]
      if k ≤ acc'.length then acc' else buscarGo frag k rest acc'
    else buscarGo frag k rest acc

/-- Search node titles for a fragment, case- and punctuation-insensitive
through the normalizer, returning up to k results as (id, raw title). -/
def buscarPorTitulo (G : GrafoDirigido) (fragmento : Str) (k : ℕ) : List (ℕ × Str) :=
  buscarGo (normText fragmento) k G.nodos []

/-- State of the first Kosaraju pass: the visited set and the finish
order list. -/
structure K1St where
  visit : Finset ℕ
  orden : List ℕ
deriving DecidableEq

/-- Neighbor loop of the first-pass visit: recurse via the supplied
one-level-deeper visit function into each not yet visited target. -/
def dfs1Go (f : ℕ → K1St → Option K1St) : List (ℕ × ℚ) → K1St → Option K1St
  | [], st => some st
  | (v, _) :: rest, st =>
    if v ∈ st.visit then dfs1Go f rest st
    else
      match f v st with
      | none => none
      | some st' => dfs1Go f rest st'

/-- First-pass depth-first visit of u: mark u visited, explore its
outgoing neighbors, then append u to the finish order. -/
def dfs1F (G : GrafoDirigido) : ℕ → ℕ → K1St → Option K1St
  | 0, _, _ => none
  | fuel + 1, u, st =>
    match dfs1Go (dfs1F G fuel) (G.vecinos u) { st with visit := insert u st.visit } with
    | none => none
    | some st2 => some { st2 with orden := st2.orden ++ [u] }

/-- First pass: run the depth-first visit from every not yet visited
node in canonical node order. -/
def fase1 (G : GrafoDirigido) (fuel : ℕ) : Option K1St :=
  G.nodosIds.foldlM
    (fun st u => if u ∈ st.visit then some st else dfs1F G fuel u st)
    ⟨∅, []⟩

/-- The transpose adjacency: for every edge u to v of the graph, v maps
to u, built in canonical node order. -/
def transpuesto (G : GrafoDirigido) : List (ℕ × List ℕ) :=
  G.nodosIds.foldl
    (fun GT u => (G.vecinos u).foldl (fun GT2 vw => dappend GT2 vw.1 u) GT) []

/-- Read access to the transpose adjacency with the defaultdict empty
default. -/
def gtGet (GT : List (ℕ × List ℕ)) (u : ℕ) : List ℕ :=
  (GT.lookup u).getD []

/-- State of the second Kosaraju pass: the visited set and the component
being collected. -/
structure K2St where
  visit : Finset ℕ
  comp : List ℕ
deriving DecidableEq

/-- Neighbor loop of the second-pass visit: recurse via the supplied
one-level-deeper visit function into each not yet visited target. -/
def dfs2Go (f : ℕ → K2St → Option K2St) : List ℕ → K2St → Option K2St
  | [], st => some st
  | w :: rest, st =>
    if w ∈ st.visit then dfs2Go f rest st
    else
      match f w st with
      | none => none
      | some st' => dfs2Go f rest st'

/-- Second-pass depth-first visit on the transpose: mark u visited,
append it to the current component, then explore its transpose
neighbors. -/
def dfs2F (GT : List (ℕ × List ℕ)) : ℕ → ℕ → K2St → Option K2St
  | 0, _, _ => none
  | fuel + 1, u, st =>
    dfs2Go (dfs2F GT fuel) (gtGet GT u) { visit := insert u st.visit, comp := st.comp ++ [u] }

/-- Third pass: process the finish order in reverse; each visit from a
not yet visited root collects one component. -/
def fase3 (GT : List (ℕ × List ℕ)) (orden : List ℕ) (fuel : ℕ) :
    Option (Finset ℕ × List (List ℕ)) :=
  orden.reverse.foldlM
    (fun p u =>
      if u ∈ p.1 then some p
      else
        match dfs2F GT fuel u ⟨p.1, []⟩ with
        | none => none
        | some st => some (st.visit, p.2 ++ [st.comp]))
    ((∅ : Finset ℕ), ([] : List (List ℕ)))

/-- Kosaraju strongly connected components: finish-order pass on the
graph, transpose construction, then reverse-finish-order pass on the
transpose. -/
def kosarajuScc (G : GrafoDirigido) (fuel : ℕ) : Option (List (List ℕ)) :=
  match fase1 G fuel with
  | none => none
  | some st1 => (fase3 (transpuesto G) st1.orden fuel).map (·.2)

theorem lookup_cons_self {α : Type} (k : ℕ) (v : α) (rest : List (ℕ × α)) :
    List.lookup k ((k, v) :: rest) = some v := by
  simp [List.lookup]

theorem lookup_cons_ne {α : Type} (k' pk : ℕ) (pv : α) (rest : List (ℕ × α))
    (h : k' ≠ pk) : List.lookup k' ((pk, pv) :: rest) = List.lookup k' rest := by
  have hb : (k' == pk) = false := beq_eq_false_iff_ne.mpr h
  simp [List.lookup, hb]

theorem lookup_aset {α : Type} (l : List (ℕ × α)) (k : ℕ) (v : α) (k' : ℕ) :
    (aset l k v).lookup k' = if k' = k then some v else l.lookup k' := by
  induction l with
  | nil =>
    by_cases h : k' = k <;>
      simp [aset, lookup_cons_self, lookup_cons_ne, h, List.lookup_nil]
  | cons p rest ih =>
    obtain ⟨pk, pv⟩ := p
    by_cases hpk : pk = k
    · subst hpk
      by_cases h : k' = pk <;>
        simp [aset, lookup_cons_self, lookup_cons_ne, h]
    · by_cases h : k' = pk
      · subst h
        simp [aset, hpk, lookup_cons_self, Ne.symm hpk]
      · simp [aset, hpk, lookup_cons_ne, h, ih]

theorem lookup_dappend {α : Type} (l : List (ℕ × List α)) (k : ℕ) (x : α) (k' : ℕ) :
    (dappend l k x).lookup k' =
      if k' = k then some ((l.lookup k).getD [] ++ [x]) else l.lookup k' := by
  induction l with
  | nil =>
    by_cases h : k' = k <;>
      simp [dappend, lookup_cons_self, lookup_cons_ne, h, List.lookup_nil]
  | cons p rest ih =>
    obtain ⟨pk, pv⟩ := p
    by_cases hpk : pk = k
    · subst hpk
      by_cases h : k' = pk <;>
        simp [dappend, lookup_cons_self, lookup_cons_ne, h]
    · by_cases h : k' = pk
      · subst h
        simp [dappend, hpk, lookup_cons_self]
      · simp [dappend, hpk, lookup_cons_ne, h, ih,
          lookup_cons_ne k pk pv rest (Ne.symm hpk)]

theorem aset_fresh {α : Type} (l : List (ℕ × α)) (k : ℕ) (v : α)
    (h : ∀ p ∈ l, p.1 ≠ k) : aset l k v = l ++ [(k, v)] := by
  induction l with
  | nil => simp [aset]
  | cons p rest ih =>
    obtain ⟨pk, pv⟩ := p
    have hpk : pk ≠ k := h (pk, pv) (by simp)
    simp [aset, hpk, ih (fun q hq => h q (by simp [hq]))]

namespace GrafoDirigido

theorem vecinos_agregarArista (G : GrafoDirigido) (u v : ℕ) (w : ℚ) (x : ℕ) :
    (G.agregarArista u v w).vecinos x =
      if x = u then G.vecinos x ++ [(v, w)] else G.vecinos x := by
  unfold agregarArista vecinos
  by_cases h : x = u
  · subst h
    simp [lookup_dappend]
  · simp [lookup_dappend, h]

theorem nodos_agregarArista (G : GrafoDirigido) (u v : ℕ) (w : ℚ) :
    (G.agregarArista u v w).nodos = G.nodos := rfl

end GrafoDirigido

/-- Ordered edge list inferred for node i: the candidates sorted by
descending similarity, truncated to the top K, with weights one minus
similarity. -/
def adjFor (articulos : List Art) (umbral : ℚ) (maxSalientes : ℕ) (i : ℕ) :
    List (ℕ × ℚ) :=
  ((sortDesc (candidatos articulos umbral i)).take maxSalientes).map
    (fun js => (js.1, 1 - js.2))

theorem innerfold_vecinos (i : ℕ) (top : List (ℕ × ℚ)) (G : GrafoDirigido) (x : ℕ) :
    (top.foldl (fun G2 js => G2.agregarArista i js.1 (1 - js.2)) G).vecinos x =
      if x = i then G.vecinos x ++ top.map (fun js => (js.1, 1 - js.2))
      else G.vecinos x := by
  induction top generalizing G with
  | nil => by_cases h : x = i <;> simp [h]
  | cons js rest ih =>
    simp only [List.foldl_cons]
    rw [ih (G.agregarArista i js.1 (1 - js.2))]
    by_cases h : x = i
    · subst h
      simp [GrafoDirigido.vecinos_agregarArista]
    · simp [h, GrafoDirigido.vecinos_agregarArista]

theorem innerfold_nodos (i : ℕ) (top : List (ℕ × ℚ)) (G : GrafoDirigido) :
    (top.foldl (fun G2 js => G2.agregarArista i js.1 (1 - js.2)) G).nodos = G.nodos := by
  induction top generalizing G with
  | nil => rfl
  | cons js rest ih =>
    simp only [List.foldl_cons]
    rw [ih (G.agregarArista i js.1 (1 - js.2))]
    rfl

theorem outerfold_nodos (articulos : List Art) (umbral : ℚ) (maxSalientes : ℕ)
    (l : List ℕ) (G : GrafoDirigido) :
    (l.foldl (fun G i =>
        ((sortDesc (candidatos articulos umbral i)).take maxSalientes).foldl
          (fun G2 js => G2.agregarArista i js.1 (1 - js.2)) G) G).nodos = G.nodos := by
  induction l generalizing G with
  | nil => rfl
  | cons i rest ih =>
    simp only [List.foldl_cons]
    rw [ih, innerfold_nodos]

theorem outerfold_vecinos (articulos : List Art) (umbral : ℚ) (maxSalientes : ℕ)
    (l : List ℕ) (G : GrafoDirigido) (hnd : l.Nodup)
    (hv : ∀ j ∈ l, G.vecinos j = []) (x : ℕ) :
    (l.foldl (fun G i =>
        ((sortDesc (candidatos articulos umbral i)).take maxSalientes).foldl
          (fun G2 js => G2.agregarArista i js.1 (1 - js.2)) G) G).vecinos x =
      if x ∈ l then adjFor articulos umbral maxSalientes x else G.vecinos x := by
  induction l generalizing G with
  | nil => simp
  | cons i rest ih =>
    simp only [List.foldl_cons]
    set G' := ((sortDesc (candidatos articulos umbral i)).take maxSalientes).foldl
      (fun G2 js => G2.agregarArista i js.1 (1 - js.2)) G with hG'
    have hGi : G'.vecinos i = adjFor articulos umbral maxSalientes i := by
      rw [hG', innerfold_vecinos]
      simp [hv i (by simp), adjFor]
    have hGother : ∀ j, j ≠ i → G'.vecinos j = G.vecinos j := by
      intro j hj
      rw [hG', innerfold_vecinos]
      simp [hj]
    have hrest : ∀ j ∈ rest, G'.vecinos j = [] := by
      intro j hj
      have hji : j ≠ i := by
        rintro rfl
        exact (List.nodup_cons.mp hnd).1 hj
      rw [hGother j hji]
      exact hv j (by simp [hj])
    rw [ih G' (List.nodup_cons.mp hnd).2 hrest]
    by_cases hx : x ∈ rest
    · simp [hx]
    · by_cases hxi : x = i
      · subst hxi
        simp [hx, hGi]
      · simp [hx, hxi, hGother x hxi]

theorem nodesfold_spec (articulos : List Art) (s : ℕ) (G : GrafoDirigido)
    (h : ∀ p ∈ G.nodos, p.1 < s) :
    ((List.enumFrom s articulos).foldl (fun G p => G.agregarNodo p.1 p.2) G).nodos =
        G.nodos ++ List.enumFrom s articulos ∧
      ((List.enumFrom s articulos).foldl (fun G p => G.agregarNodo p.1 p.2) G).adj = G.adj := by
  induction articulos generalizing s G with
  | nil => simp
  | cons a rest ih =>
    simp only [List.enumFrom_cons, List.foldl_cons]
    have hset : (G.agregarNodo s a).nodos = G.nodos ++ [(s, a)] := by
      unfold GrafoDirigido.agregarNodo
      exact aset_fresh G.nodos s a (fun p hp => Nat.ne_of_lt (h p hp))
    have hfresh : ∀ p ∈ (G.agregarNodo s a).nodos, p.1 < s + 1 := by
      intro p hp
      rw [hset] at hp
      rcases List.mem_append.mp hp with hp | hp
      · exact Nat.lt_succ_of_lt (h p hp)
      · simp at hp
        simp [hp]
    obtain ⟨h1, h2⟩ := ih (s + 1) (G.agregarNodo s a) hfresh
    exact ⟨by rw [h1, hset]; simp, by rw [h2]; rfl⟩

theorem nodesfold0_nodos (articulos : List Art) :
    (articulos.enum.foldl (fun G p => G.agregarNodo p.1 p.2)
      (⟨[], []⟩ : GrafoDirigido)).nodos = articulos.enum := by
  have h0 := (nodesfold_spec articulos 0 ⟨[], []⟩ (by simp)).1
  simpa [List.enum] using h0

theorem nodesfold0_adj (articulos : List Art) :
    (articulos.enum.foldl (fun G p => G.agregarNodo p.1 p.2)
      (⟨[], []⟩ : GrafoDirigido)).adj = [] := by
  have h0 := (nodesfold_spec articulos 0 ⟨[], []⟩ (by simp)).2
  simpa [List.enum] using h0

theorem nodesfold0_vecinos (articulos : List Art) (j : ℕ) :
    (articulos.enum.foldl (fun G p => G.agregarNodo p.1 p.2)
      (⟨[], []⟩ : GrafoDirigido)).vecinos j = [] := by
  unfold GrafoDirigido.vecinos
  rw [nodesfold0_adj]
  rfl

theorem nodos_construirGrafo (articulos : List Art) (umbral : ℚ) (maxSalientes : ℕ) :
    (construirGrafo articulos umbral maxSalientes).nodos = articulos.enum := by
  unfold construirGrafo
  rw [outerfold_nodos, nodesfold0_nodos]

theorem nodosIds_construirGrafo (articulos : List Art) (umbral : ℚ) (maxSalientes : ℕ) :
    (construirGrafo articulos umbral maxSalientes).nodosIds = List.range articulos.length := by
  unfold GrafoDirigido.nodosIds
  rw [nodos_construirGrafo]
  exact List.enum_map_fst articulos

theorem vecinos_construirGrafo (articulos : List Art) (umbral : ℚ) (maxSalientes : ℕ)
    (x : ℕ) :
    (construirGrafo articulos umbral maxSalientes).vecinos x =
      if x < articulos.length then adjFor articulos umbral maxSalientes x else [] := by
  unfold construirGrafo
  rw [outerfold_vecinos articulos umbral maxSalientes _ _ (List.nodup_range _)
    (fun j _ => nodesfold0_vecinos articulos j) x]
  by_cases hx : x < articulos.length
  · simp [hx, List.mem_range]
  · simp [hx, List.mem_range, nodesfold0_vecinos]

theorem mem_insDesc (x y : ℕ × ℚ) (l : List (ℕ × ℚ)) :
    y ∈ insDesc x l ↔ y = x ∨ y ∈ l := by
  induction l with
  | nil => simp [insDesc]
  | cons z zs ih =>
    by_cases h : x.2 < z.2
    · simp [insDesc, h, ih]
      tauto
    · simp [insDesc, h]

theorem insDesc_perm (x : ℕ × ℚ) (l : List (ℕ × ℚ)) :
    (insDesc x l).Perm (x :: l) := by
  induction l with
  | nil => simp [insDesc]
  | cons z zs ih =>
    by_cases h : x.2 < z.2
    · simp only [insDesc, h, if_pos]
      exact (ih.cons z).trans (List.Perm.swap x z zs)
    · simp [insDesc, h]

theorem sortDesc_perm (l : List (ℕ × ℚ)) : (sortDesc l).Perm l := by
  induction l with
  | nil => simp [sortDesc]
  | cons x xs ih =>
    simp only [sortDesc, List.foldr_cons]
    exact (insDesc_perm x _).trans (ih.cons x)

/-- The strict ordering asserted of adjacency lists: strictly descending
similarity, with ties broken by ascending scan index. -/
def AdjOrder (a b : ℕ × ℚ) : Prop :=
  b.2 < a.2 ∨ (a.2 = b.2 ∧ a.1 < b.1)

theorem insDesc_stable (x : ℕ × ℚ) (l : List (ℕ × ℚ))
    (hl : l.Pairwise AdjOrder) (hx : ∀ y ∈ l, x.1 < y.1) :
    (insDesc x l).Pairwise AdjOrder := by
  induction l with
  | nil => simp [insDesc]
  | cons z zs ih =>
    rcases List.pairwise_cons.mp hl with ⟨hz, hzs⟩
    by_cases h : x.2 < z.2
    · simp only [insDesc, h, if_pos]
      refine List.pairwise_cons.mpr ⟨?_, ih hzs (fun y hy => hx y (by simp [hy]))⟩
      intro y hy
      rcases (mem_insDesc x y zs).mp hy with rfl | hy
      · exact Or.inl h
      · exact hz y hy
    · simp only [insDesc, h, if_neg]
      refine List.pairwise_cons.mpr ⟨?_, hl⟩
      intro y hy
      rcases List.mem_cons.mp hy with rfl | hy
      · rcases lt_or_eq_of_le (le_of_not_lt h) with h2 | h2
        · exact Or.inl h2
        · exact Or.inr ⟨h2.symm, hx y (by simp)⟩
      · have hzy := hz y hy
        have hle : z.2 ≤ x.2 := le_of_not_lt h
        rcases hzy with hzy | ⟨hzy1, hzy2⟩
        · exact Or.inl (lt_of_lt_of_le hzy hle)
        · rcases lt_or_eq_of_le hle with h2 | h2
          · exact Or.inl (hzy1 ▸ h2)
          · exact Or.inr ⟨h2.symm.trans hzy1, hx y (by simp [hy])⟩

theorem sortDesc_stable (l : List (ℕ × ℚ))
    (hl : l.Pairwise (fun a b => a.1 < b.1)) :
    (sortDesc l).Pairwise AdjOrder := by
  induction l with
  | nil => simp [sortDesc]
  | cons x xs ih =>
    rcases List.pairwise_cons.mp hl with ⟨hx, hxs⟩
    simp only [sortDesc, List.foldr_cons]
    refine insDesc_stable x _ (ih hxs) ?_
    intro y hy
    exact hx y ((sortDesc_perm xs).mem_iff.mp hy)

theorem mem_candidatos (articulos : List Art) (umbral : ℚ) (i : ℕ) (p : ℕ × ℚ) :
    p ∈ candidatos articulos umbral i ↔
      p.1 < articulos.length ∧ i ≠ p.1 ∧
        umbral ≤ similitudArticulos (articulos.getD i default) (articulos.getD p.1 default) ∧
        p.2 = similitudArticulos (articulos.getD i default) (articulos.getD p.1 default) := by
  unfold candidatos
  rw [List.mem_filterMap]
  constructor
  · rintro ⟨j, hj, hf⟩
    by_cases hij : i = j
    · simp [hij] at hf
    · simp only [hij, if_neg, if_false] at hf
      by_cases hsim : umbral ≤ similitudArticulos (articulos.getD i default)
          (articulos.getD j default)
      · rw [if_pos hsim] at hf
        cases hf
        exact ⟨List.mem_range.mp hj, hij, hsim, rfl⟩
      · rw [if_neg hsim] at hf
        cases hf
  · rintro ⟨h1, h2, h3, h4⟩
    refine ⟨p.1, List.mem_range.mpr h1, ?_⟩
    simp only [h2, if_neg, if_false, h3, if_pos]
    rw [← h4]

theorem candidatos_pairwise_fst (articulos : List Art) (umbral : ℚ) (i : ℕ) :
    (candidatos articulos umbral i).Pairwise (fun a b => a.1 < b.1) := by
  unfold candidatos
  rw [List.pairwise_filterMap]
  refine (List.pairwise_lt_range _).imp ?_
  intro j k hjk b hb b' hb'
  have hbj : b.1 = j := by
    by_cases h1 : i = j
    · simp [h1] at hb
    · simp [h1] at hb
      rw [← hb.2]
  have hbk : b'.1 = k := by
    by_cases h1 : i = k
    · simp [h1] at hb'
    · simp [h1] at hb'
      rw [← hb'.2]
  rw [hbj, hbk]
  exact hjk

theorem candidatos_fst_nodup (articulos : List Art) (umbral : ℚ) (i : ℕ) :
    ((candidatos articulos umbral i).map Prod.fst).Nodup := by
  have h := candidatos_pairwise_fst articulos umbral i
  have h2 : ((candidatos articulos umbral i).map Prod.fst).Pairwise (· < ·) :=
    List.pairwise_map.mpr h
  exact h2.imp (fun hab => Nat.ne_of_lt hab)

theorem mem_adjFor (articulos : List Art) (umbral : ℚ) (maxSalientes : ℕ) (i : ℕ)
    (p : ℕ × ℚ) (hp : p ∈ adjFor articulos umbral maxSalientes i) :
    ∃ js ∈ candidatos articulos umbral i, p = (js.1, 1 - js.2) := by
  unfold adjFor at hp
  rcases List.mem_map.mp hp with ⟨js, hjs, rfl⟩
  exact ⟨js, (sortDesc_perm _).mem_iff.mp (List.mem_of_mem_take hjs), rfl⟩

theorem adjFor_fst_nodup (articulos : List Art) (umbral : ℚ) (maxSalientes : ℕ) (i : ℕ) :
    ((adjFor articulos umbral maxSalientes i).map Prod.fst).Nodup := by
  unfold adjFor
  rw [List.map_map]
  have heq : (Prod.fst ∘ fun js : ℕ × ℚ => (js.1, 1 - js.2)) = Prod.fst := rfl
  rw [heq]
  have hnd : ((sortDesc (candidatos articulos umbral i)).map Prod.fst).Nodup :=
    (candidatos_fst_nodup articulos umbral i).perm
      ((sortDesc_perm _).map Prod.fst).symm
  exact hnd.sublist (List.Sublist.map Prod.fst (List.take_sublist _ _))

theorem adjFor_length (articulos : List Art) (umbral : ℚ) (maxSalientes : ℕ) (i : ℕ) :
    (adjFor articulos umbral maxSalientes i).length ≤ maxSalientes := by
  unfold adjFor
  rw [List.length_map]
  exact (List.length_take _ _).trans_le (min_le_left _ _)

/-- C5: in a graph built by construirGrafo, every node has out-degree at
most the configured maximum, at most one edge per ordered target, no
self-loop, and each edge to j carries weight exactly one minus the
similarity of the two articles, a value in the unit interval, and exists
only when that similarity reaches the threshold. -/
theorem construir_edge_invariants (articulos : List Art) (umbral : ℚ)
    (maxSalientes : ℕ) (i : ℕ) :
    ((construirGrafo articulos umbral maxSalientes).vecinos i).length ≤ maxSalientes ∧
    (((construirGrafo articulos umbral maxSalientes).vecinos i).map Prod.fst).Nodup ∧
    ∀ p ∈ (construirGrafo articulos umbral maxSalientes).vecinos i,
      p.1 ≠ i ∧
      umbral ≤ similitudArticulos (articulos.getD i default) (articulos.getD p.1 default) ∧
      p.2 = 1 - similitudArticulos (articulos.getD i default) (articulos.getD p.1 default) ∧
      0 ≤ p.2 ∧ p.2 ≤ 1 := by
  rw [vecinos_construirGrafo]
  by_cases hi : i < articulos.length
  · rw [if_pos hi]
    refine ⟨adjFor_length _ _ _ _, adjFor_fst_nodup _ _ _ _, ?_⟩
    intro p hp
    rcases mem_adjFor _ _ _ _ p hp with ⟨js, hjs, rfl⟩
    rcases (mem_candidatos _ _ _ _).mp hjs with ⟨h1, h2, h3, h4⟩
    have hs0 := similitud_nonneg (articulos.getD i default) (articulos.getD js.1 default)
    have hs1 := similitud_le_one (articulos.getD i default) (articulos.getD js.1 default)
    refine ⟨Ne.symm h2, h3, by rw [h4], ?_, ?_⟩
    · simp only [h4]
      linarith
    · simp only [h4]
      linarith
  · rw [if_neg hi]
    simp

/-- C8: for every node of a graph built by construirGrafo, the adjacency
list is obtained from the candidate list by ordering it in strictly
descending similarity with ties in ascending scan index, truncating to
the first maxSalientes entries, and mapping each (j, s) to the edge
(j, 1 - s). -/
theorem construir_adj_ordering (articulos : List Art) (umbral : ℚ)
    (maxSalientes : ℕ) (i : ℕ) (hi : i < articulos.length) :
    ∃ c : List (ℕ × ℚ), c.Perm (candidatos articulos umbral i) ∧
      c.Pairwise AdjOrder ∧
      (construirGrafo articulos umbral maxSalientes).vecinos i =
        (c.take maxSalientes).map (fun js => (js.1, 1 - js.2)) := by
  refine ⟨sortDesc (candidatos articulos umbral i), sortDesc_perm _,
    sortDesc_stable _ (candidatos_pairwise_fst _ _ _), ?_⟩
  rw [vecinos_construirGrafo, if_pos hi]
  rfl

/-- A concrete one-word article used by witnesses. -/
def artU : Art := ⟨['a'], [], [], [], [], []⟩

/-- Witness for C8 at a concrete input: two identical one-word articles. -/
theorem construir_adj_ordering_witness :
    0 < [artU, artU].length ∧
    ∃ c : List (ℕ × ℚ),
      c.Perm (candidatos [artU, artU] (7/20 : ℚ) 0) ∧
      c.Pairwise AdjOrder ∧
      (construirGrafo [artU, artU] (7/20 : ℚ) 5).vecinos 0 =
        (c.take 5).map (fun js => (js.1, 1 - js.2)) :=
  ⟨by decide, construir_adj_ordering [artU, artU] (7/20 : ℚ) 5 0 (by decide)⟩

theorem buscarGo_nil_frag (k : ℕ) (l : List (ℕ × Art)) (acc : List (ℕ × Str)) :
    buscarGo [] k l acc = acc := by
  induction l generalizing acc with
  | nil => rfl
  | cons p rest ih =>
    obtain ⟨i, data⟩ := p
    simp [buscarGo, ih]

/-- C10: whenever the normalization of the search fragment is empty --
in particular for the empty fragment and for fragments made only of
punctuation or whitespace -- the title search returns no results, for
every graph and every limit, regardless of the raw titles. -/
theorem buscar_empty_norm (G : GrafoDirigido) (fragmento : Str) (k : ℕ)
    (h : normText fragmento = []) : buscarPorTitulo G fragmento k = [] := by
  unfold buscarPorTitulo
  rw [h]
  exact buscarGo_nil_frag k G.nodos []

/-- Witness for C10: a punctuation-only fragment normalizes to empty and
is found nowhere even though a node title contains it literally. -/
theorem buscar_empty_norm_witness :
    normText ['-', '!'] = [] ∧
    buscarPorTitulo (⟨[(0, ⟨['a', '-', '!'], [], [], [], [], []⟩)], []⟩ : GrafoDirigido)
      ['-', '!'] 5 = [] :=
  ⟨by decide, buscar_empty_norm _ ['-', '!'] 5 (by decide)⟩

/-- C7 counterexample to the error part: Dijkstra called on the graph
built from zero articles with the nonexistent source 0 returns normally
(with the source entered at distance zero), rather than signalling an
error. -/
theorem dijkstra_nonexistent_source_returns :
    construirGrafo [] (7/20 : ℚ) 5 = (⟨[], []⟩ : GrafoDirigido) ∧
    (0 : ℕ) ∉ (construirGrafo [] (7/20 : ℚ) 5).nodosIds ∧
    dijkstra (construirGrafo [] (7/20 : ℚ) 5) 0 1 =
      some ⟨[(0, ((0 : ℚ) : WithTop ℚ))], [], [], [((0 : ℚ), 0)]⟩ := by
  refine ⟨rfl, by decide, by decide⟩

/-- C7 (amended): building from zero articles yields zero nodes and zero
edges, Kosaraju returns the empty component list, and Dijkstra from any
source absent from the empty graph returns normally with the source
recorded at distance zero and an empty predecessor map. -/
theorem empty_input_behavior :
    construirGrafo [] (7/20 : ℚ) 5 = (⟨[], []⟩ : GrafoDirigido) ∧
    kosarajuScc (⟨[], []⟩ : GrafoDirigido) 1 = some [] ∧
    ∀ s : ℕ, dijkstra (⟨[], []⟩ : GrafoDirigido) s 1 =
      some ⟨[(s, ((0 : ℚ) : WithTop ℚ))], [], [], [((0 : ℚ), s)]⟩ := by
  refine ⟨rfl, by decide, ?_⟩
  intro s
  simp [dijkstra, dijkstraLoop, popMin, relaxEdges, GrafoDirigido.vecinos,
    GrafoDirigido.nodosIds, aset, List.lookup]

theorem similitud_artU : similitudArticulos artU artU = 1/2 := by
  have ht : tokensOf (normText artU.title) = {['a']} := rfl
  have hj1 : jaccard (tokensOf (normText artU.title)) (tokensOf (normText artU.title)) = 1 := by
    rw [ht, jaccard, if_neg (by decide), if_neg (by decide)]
    rw [show ({['a']} ∩ {['a']} : Finset Str).card = 1 from rfl]
    rw [show ({['a']} ∪ {['a']} : Finset Str).card = 1 from rfl]
    norm_num
  have ha : (splitAuthors artU.authors).toFinset = (∅ : Finset Str) := rfl
  have hk : (splitKeywords artU.keywords).toFinset = (∅ : Finset Str) := rfl
  have hj0 : jaccard (∅ : Finset Str) (∅ : Finset Str) = 0 := by
    rw [jaccard, if_pos ⟨rfl, rfl⟩]
  unfold similitudArticulos
  rw [hj1, ha, hk, hj0]
  norm_num

theorem candidatos_artU :
    candidatos [artU, artU] (7/20 : ℚ) 0 = [(1, similitudArticulos artU artU)] := by
  unfold candidatos
  rw [show [artU, artU].length = 2 from rfl, show List.range 2 = [0, 1] from rfl]
  rw [List.filterMap_cons, List.filterMap_cons, List.filterMap_nil]
  rw [if_pos rfl]
  rw [if_neg (by decide)]
  have : ([artU, artU].getD 0 default) = artU := rfl
  have h2 : ([artU, artU].getD 1 default) = artU := rfl
  simp only [this, h2]
  rw [if_pos (by rw [similitud_artU]; norm_num)]

theorem vecinos_artU :
    (construirGrafo [artU, artU] (7/20 : ℚ) 5).vecinos 0 = [(1, (1/2 : ℚ))] := by
  rw [vecinos_construirGrafo, if_pos (by decide)]
  unfold adjFor
  rw [candidatos_artU]
  rw [show sortDesc [(1, similitudArticulos artU artU)] =
    [(1, similitudArticulos artU artU)] from rfl]
  rw [show List.take 5 [((1 : ℕ), similitudArticulos artU artU)] =
    [(1, similitudArticulos artU artU)] from rfl]
  rw [List.map_cons, List.map_nil, similitud_artU]
  norm_num

/-- Witness for C5 at a concrete input: the inner edge conditions hold
at the edge 0 to 1 of the two-identical-articles graph. -/
theorem construir_edge_invariants_witness :
    ((1 : ℕ), (1/2 : ℚ)) ∈ (construirGrafo [artU, artU] (7/20 : ℚ) 5).vecinos 0 ∧
    (((1 : ℕ), (1/2 : ℚ)).1 ≠ 0 ∧
      (7/20 : ℚ) ≤ similitudArticulos ([artU, artU].getD 0 default)
        ([artU, artU].getD (((1 : ℕ), (1/2 : ℚ)).1) default) ∧
      ((1 : ℕ), (1/2 : ℚ)).2 = 1 - similitudArticulos ([artU, artU].getD 0 default)
        ([artU, artU].getD (((1 : ℕ), (1/2 : ℚ)).1) default) ∧
      0 ≤ ((1 : ℕ), (1/2 : ℚ)).2 ∧ ((1 : ℕ), (1/2 : ℚ)).2 ≤ 1) :=
  ⟨by rw [vecinos_artU]; simp,
    (construir_edge_invariants [artU, artU] (7/20 : ℚ) 5 0).2.2
      ((1 : ℕ), (1/2 : ℚ)) (by rw [vecinos_artU]; simp)⟩

/-- Nodes recorded as settled, in settle order. -/
def settledNodes (st : DState) : List ℕ :=
  st.settled.map Prod.snd

/-- All edge weights of the graph are nonnegative (guaranteed for built
graphs, where weight is one minus a similarity in the unit interval). -/
def NonnegWeights (G : GrafoDirigido) : Prop :=
  ∀ u : ℕ, ∀ p ∈ G.vecinos u, 0 ≤ p.2

theorem pqLe_total (a b : ℚ × ℕ) : pqLe a b ∨ pqLe b a := by
  unfold pqLe
  rcases lt_trichotomy a.1 b.1 with h | h | h
  · exact Or.inl (Or.inl h)
  · rcases Nat.le_total a.2 b.2 with h2 | h2
    · exact Or.inl (Or.inr ⟨h, h2⟩)
    · exact Or.inr (Or.inr ⟨h.symm, h2⟩)
  · exact Or.inr (Or.inl h)

theorem pqLe_fst (a b : ℚ × ℕ) (h : pqLe a b) : a.1 ≤ b.1 := by
  rcases h with h | ⟨h, _⟩
  · exact le_of_lt h
  · exact le_of_eq h

theorem popMin_none (l : List (ℚ × ℕ)) : popMin l = none ↔ l = [] := by
  cases l with
  | nil => simp [popMin]
  | cons e rest =>
    simp only [popMin]
    constructor
    · intro h
      rcases hm : popMin rest with _ | ⟨m, rest'⟩ <;> rw [hm] at h
      · simp at h
      · by_cases hle : pqLe e m <;> simp [hle] at h
    · intro h
      cases h

theorem popMin_spec (l : List (ℚ × ℕ)) (m : ℚ × ℕ) (rest : List (ℚ × ℕ))
    (h : popMin l = some (m, rest)) :
    l.Perm (m :: rest) ∧ ∀ e ∈ l, pqLe m e := by
  induction l generalizing m rest with
  | nil => cases h
  | cons e tl ih =>
    rcases hm : popMin tl with _ | ⟨m', rest'⟩
    · have htl : tl = [] := (popMin_none tl).mp hm
      subst htl
      simp only [popMin, hm] at h
      obtain ⟨rfl, rfl⟩ := Prod.mk.injEq .. ▸ Option.some_inj.mp h
      refine ⟨List.Perm.refl _, ?_⟩
      intro x hx
      simp only [List.mem_singleton] at hx
      subst hx
      rcases pqLe_total x x with h | h <;> exact h
    · obtain ⟨hperm, hmin⟩ := ih m' rest' hm
      by_cases hle : pqLe e m'
      · have h' : popMin (e :: tl) = some (e, tl) := by
          simp only [popMin, hm, if_pos hle]
        rw [h'] at h
        obtain ⟨rfl, rfl⟩ := Prod.mk.injEq .. ▸ Option.some_inj.mp h
        refine ⟨List.Perm.refl _, ?_⟩
        intro x hx
        rcases List.mem_cons.mp hx with rfl | hx
        · rcases pqLe_total x x with h | h <;> exact h
        · have h3 := hmin x hx
          rcases hle with h1 | ⟨h1, h2⟩
          · rcases h3 with h3 | ⟨h3, h4⟩
            · exact Or.inl (h1.trans h3)
            · exact Or.inl (h3 ▸ h1)
          · rcases h3 with h3 | ⟨h3, h4⟩
            · exact Or.inl (h1 ▸ h3)
            · exact Or.inr ⟨h1.trans h3, h2.trans h4⟩
      · have h' : popMin (e :: tl) = some (m', e :: rest') := by
          simp only [popMin, hm, if_neg hle]
        rw [h'] at h
        obtain ⟨rfl, rfl⟩ := Prod.mk.injEq .. ▸ Option.some_inj.mp h
        constructor
        · exact (hperm.cons e).trans (List.Perm.swap m' e rest')
        · intro x hx
          rcases List.mem_cons.mp hx with rfl | hx
          · rcases pqLe_total m' x with h | h
            · exact h
            · exact absurd h hle
          · exact hmin x hx

/-- A length-bounded path from the head to the last element of the list
following graph edges, with the given total weight. -/
inductive PathCost (G : GrafoDirigido) : List ℕ → ℚ → Prop
  | single (v : ℕ) : PathCost G [v] 0
  | cons (u v : ℕ) (rest : List ℕ) (w c : ℚ) :
      (v, w) ∈ G.vecinos u → PathCost G (v :: rest) c →
      PathCost G (u :: v :: rest) (w + c)

theorem PathCost.append_edge (G : GrafoDirigido) (P : List ℕ) (c : ℚ)
    (h : PathCost G P c) (u v : ℕ) (w : ℚ)
    (hlast : P.getLast? = some u) (hedge : (v, w) ∈ G.vecinos u) :
    PathCost G (P ++ [v]) (c + w) := by
  induction h with
  | single x =>
    have hx : x = u := by simpa using hlast
    subst hx
    simpa using PathCost.cons x v [] w 0 hedge (PathCost.single v)
  | cons a b rest wab cbr hedgeab hrest ih =>
    have hlast' : (b :: rest).getLast? = some u := by
      rw [← hlast]
      simp [List.getLast?_cons_cons]
    have h2 := PathCost.cons a b (rest ++ [v]) wab (cbr + w) hedgeab (ih hlast')
    simpa [add_assoc] using h2

theorem lookup_map_const {α : Type} (l : List ℕ) (c : α) (v : ℕ) :
    ((l.map (fun u => (u, c))).lookup v) = if v ∈ l then some c else none := by
  induction l with
  | nil => simp [List.lookup_nil]
  | cons x xs ih =>
    by_cases h : v = x
    · subst h
      simp [lookup_cons_self]
    · rw [List.map_cons, lookup_cons_ne v x c _ h, ih]
      simp [h, List.mem_cons]

/-- The stable core of the Dijkstra loop invariant: key sets, value
bounds, the ordering discipline of the settled list and the queue, and
the meaning of predecessor links. -/
structure DBase (G : GrafoDirigido) (origen : ℕ) (st : DState) : Prop where
  dist_keys : ∀ v : ℕ, (st.dist.lookup v).isSome ↔ (v ∈ G.nodosIds ∨ v = origen)
  dist_nonneg : ∀ v d, st.dist.lookup v = some d → 0 ≤ d
  origen_zero : st.dist.lookup origen = some ((0 : ℚ) : WithTop ℚ)
  pq_bound : ∀ e ∈ st.pq, ∃ dv, st.dist.lookup e.2 = some dv ∧
      dv ≤ ((e.1 : ℚ) : WithTop ℚ) ∧ 0 ≤ e.1
  settled_sorted : st.settled.Pairwise (fun a b => a.1 ≤ b.1)
  settled_le_pq : ∀ a ∈ st.settled, ∀ e ∈ st.pq, a.1 ≤ e.1
  settled_nodup : (settledNodes st).Nodup
  settled_dist : ∀ a ∈ st.settled, st.dist.lookup a.2 = some ((a.1 : ℚ) : WithTop ℚ)
  settled_stale : ∀ a ∈ st.settled, ∀ e ∈ st.pq, e.2 = a.2 → a.1 < e.1
  pq_strict : ∀ v : ℕ, ((st.pq.filter (fun e => e.2 = v)).map Prod.fst).Nodup
  prev_keys : ∀ v ∈ G.nodosIds, (st.prev.lookup v).isSome
  prev_spec : ∀ v u, st.prev.lookup v = some (some u) →
      ∃ w, (v, w) ∈ G.vecinos u ∧
        ∃ du : ℚ, st.dist.lookup u = some ((du : ℚ) : WithTop ℚ) ∧
          st.dist.lookup v = some (((du + w : ℚ) : ℚ) : WithTop ℚ) ∧
          u ∈ settledNodes st ∧
          (v ∈ settledNodes st →
            (settledNodes st).indexOf u < (settledNodes st).indexOf v)
  prev_none : ∀ v, st.prev.lookup v = some none → v ≠ origen →
      st.dist.lookup v = some ⊤
  finite_prev : ∀ v dv, st.dist.lookup v = some dv → dv ≠ ⊤ → v ≠ origen →
      ∃ u, st.prev.lookup v = some (some u)
  reach_finite : ∀ v dv, st.dist.lookup v = some dv → dv ≠ ⊤ → Reach G origen v

/-- A node is either at infinite distance, or its exact distance sits in
the queue, or all its outgoing edges are relaxed. -/
def RoQ (G : GrafoDirigido) (st : DState) (v : ℕ) : Prop :=
  ∀ dv, st.dist.lookup v = some dv → dv = ⊤ ∨
    (∃ e ∈ st.pq, e.2 = v ∧ ((e.1 : ℚ) : WithTop ℚ) = dv) ∨
    (∀ p ∈ G.vecinos v, ∃ dx, st.dist.lookup p.1 = some dx ∧
      dx ≤ dv + ((p.2 : ℚ) : WithTop ℚ))

/-- The full Dijkstra loop invariant. -/
def DInv (G : GrafoDirigido) (origen : ℕ) (st : DState) : Prop :=
  DBase G origen st ∧ ∀ v, RoQ G st v

/-- The initial Dijkstra state satisfies the invariant. -/
theorem dinv_init (G : GrafoDirigido) (origen : ℕ) :
    DInv G origen
      { dist := aset (G.nodosIds.map (fun u => (u, (⊤ : WithTop ℚ)))) origen
          ((0 : ℚ) : WithTop ℚ),
        prev := G.nodosIds.map (fun u => (u, (none : Option ℕ))),
        pq := [((0 : ℚ), origen)], settled := [] } := by
  have hdl : ∀ v : ℕ,
      (aset (G.nodosIds.map (fun u => (u, (⊤ : WithTop ℚ)))) origen
        ((0 : ℚ) : WithTop ℚ)).lookup v =
      if v = origen then some ((0 : ℚ) : WithTop ℚ)
      else if v ∈ G.nodosIds then some ⊤ else none := by
    intro v
    rw [lookup_aset, lookup_map_const]
  have hpl : ∀ v : ℕ,
      ((G.nodosIds.map (fun u => (u, (none : Option ℕ)))).lookup v) =
      if v ∈ G.nodosIds then some none else none := by
    intro v
    rw [lookup_map_const]
  constructor
  · constructor
    · intro v
      rw [hdl]
      by_cases h1 : v = origen <;> by_cases h2 : v ∈ G.nodosIds <;> simp [h1, h2]
    · intro v d h
      rw [hdl] at h
      split_ifs at h with h1 h2 <;>
        first
          | (cases h; exact le_refl _)
          | (cases h; exact le_top)
          | cases h
    · rw [hdl, if_pos rfl]
    · intro e he
      simp only [List.mem_singleton] at he
      subst he
      refine ⟨((0 : ℚ) : WithTop ℚ), by rw [hdl, if_pos rfl], le_refl _, le_refl _⟩
    · exact List.Pairwise.nil
    · intro a ha
      cases ha
    · simp [settledNodes]
    · intro a ha
      cases ha
    · intro a ha
      cases ha
    · intro v
      by_cases h : origen = v <;> simp [h, List.filter]
    · intro v hv
      rw [hpl, if_pos hv]
      rfl
    · intro v u h
      rw [hpl] at h
      split_ifs at h with h1 <;> cases h
    · intro v h hne
      rw [hpl] at h
      split_ifs at h with h1 <;>
        first
          | rw [hdl, if_neg hne, if_pos h1]
          | cases h
    · intro v dv h hfin hne
      rw [hdl, if_neg hne] at h
      split_ifs at h with h1 <;>
        first
          | (cases h; exact absurd rfl hfin)
          | cases h
    · intro v dv h hfin
      rw [hdl] at h
      split_ifs at h with h1 h2 <;>
        first
          | (subst h1; exact Relation.ReflTransGen.refl)
          | (cases h; exact absurd rfl hfin)
          | cases h
  · intro v dv h
    rw [hdl] at h
    split_ifs at h with h1 h2 <;>
      first
        | (subst h1; cases h; exact Or.inr (Or.inl ⟨((0 : ℚ), v), by simp⟩))
        | (cases h; exact Or.inl rfl)
        | cases h

/-- The state change performed by one successful relaxation. -/
def relaxUpd (st : DState) (u v : ℕ) (alt : ℚ) : DState :=
  { st with
    dist := aset st.dist v ((alt : ℚ) : WithTop ℚ),
    prev := aset st.prev v (some u),
    pq := st.pq ++ [(alt, v)] }

theorem relaxUpd_dist (st : DState) (u v : ℕ) (alt : ℚ) (x : ℕ) :
    (relaxUpd st u v alt).dist.lookup x =
      if x = v then some ((alt : ℚ) : WithTop ℚ) else st.dist.lookup x := by
  unfold relaxUpd
  exact lookup_aset _ _ _ _

theorem relaxUpd_prev (st : DState) (u v : ℕ) (alt : ℚ) (x : ℕ) :
    (relaxUpd st u v alt).prev.lookup x =
      if x = v then some (some u) else st.prev.lookup x := by
  unfold relaxUpd
  exact lookup_aset _ _ _ _

set_option maxHeartbeats 1000000 in
theorem update_step (G : GrafoDirigido) (origen u : ℕ) (st : DState) (du w : ℚ) (v : ℕ)
    (dv : WithTop ℚ)
    (hnn : NonnegWeights G)
    (hedge : (v, w) ∈ G.vecinos u)
    (hbase : DBase G origen st) (hroq : ∀ x, x ≠ u → RoQ G st x)
    (hu : st.dist.lookup u = some ((du : ℚ) : WithTop ℚ))
    (hdu0 : (0 : ℚ) ≤ du)
    (husett : u ∈ settledNodes st)
    (hsle : ∀ a ∈ st.settled, a.1 ≤ du)
    (hv : st.dist.lookup v = some dv)
    (hlt : ((du + w : ℚ) : WithTop ℚ) < dv) :
    DBase G origen (relaxUpd st u v (du + w)) ∧
    (∀ x, x ≠ u → RoQ G (relaxUpd st u v (du + w)) x) := by
  have hw0 : (0 : ℚ) ≤ w := hnn u (v, w) hedge
  have halt0 : (0 : ℚ) ≤ du + w := by linarith
  have hvu : v ≠ u := by
    rintro rfl
    rw [hv] at hu
    cases hu
    have : du + w < du := by exact_mod_cast hlt
    linarith
  have hvunsett : v ∉ settledNodes st := by
    intro hmem
    rcases List.mem_map.mp hmem with ⟨a, ha, ha2⟩
    have hd := hbase.settled_dist a ha
    rw [ha2] at hd
    rw [hv] at hd
    cases hd
    have h1 : a.1 ≤ du := hsle a ha
    have h2 : du + w < a.1 := by exact_mod_cast hlt
    linarith
  have ldist := relaxUpd_dist st u v (du + w)
  have lprev := relaxUpd_prev st u v (du + w)
  have hsettle_eq : (relaxUpd st u v (du + w)).settled = st.settled := rfl
  have hsn_eq : settledNodes (relaxUpd st u v (du + w)) = settledNodes st := rfl
  have hpq_eq : (relaxUpd st u v (du + w)).pq = st.pq ++ [(du + w, v)] := rfl
  constructor
  · constructor
    · intro x
      rw [ldist]
      by_cases hx : x = v
      · subst hx
        have := (hbase.dist_keys x).mp (by rw [hv]; rfl)
        simp [this]
      · rw [if_neg hx]
        exact hbase.dist_keys x
    · intro x d h
      rw [ldist] at h
      by_cases hx : x = v
      · rw [if_pos hx] at h
        cases h
        exact_mod_cast halt0
      · rw [if_neg hx] at h
        exact hbase.dist_nonneg x d h
    · have hvo : v ≠ origen := by
        rintro rfl
        rw [hbase.origen_zero] at hv
        cases hv
        have : du + w < 0 := by exact_mod_cast hlt
        linarith
      rw [ldist, if_neg (Ne.symm hvo)]
      exact hbase.origen_zero
    · intro e he
      rw [hpq_eq] at he
      rcases List.mem_append.mp he with he | he
      · rcases hbase.pq_bound e he with ⟨dv', hdv', hle', h0'⟩
        by_cases hx : e.2 = v
        · refine ⟨((du + w : ℚ) : WithTop ℚ), by rw [ldist, if_pos hx], ?_, h0'⟩
          rw [hx] at hdv'
          rw [hv] at hdv'
          cases hdv'
          exact le_trans (le_of_lt hlt) hle'
        · exact ⟨dv', by rw [ldist, if_neg hx]; exact hdv', hle', h0'⟩
      · simp only [List.mem_singleton] at he
        subst he
        exact ⟨((du + w : ℚ) : WithTop ℚ), by rw [ldist, if_pos rfl], le_refl _, halt0⟩
    · rw [hsettle_eq]
      exact hbase.settled_sorted
    · intro a ha e he
      rw [hsettle_eq] at ha
      rw [hpq_eq] at he
      rcases List.mem_append.mp he with he | he
      · exact hbase.settled_le_pq a ha e he
      · simp only [List.mem_singleton] at he
        subst he
        exact le_trans (hsle a ha) (le_add_of_nonneg_right hw0)
    · rw [hsn_eq]
      exact hbase.settled_nodup
    · intro a ha
      rw [hsettle_eq] at ha
      have hav : a.2 ≠ v := by
        intro h
        exact hvunsett (h ▸ List.mem_map_of_mem Prod.snd ha)
      rw [ldist, if_neg hav]
      exact hbase.settled_dist a ha
    · intro a ha e he hev
      rw [hsettle_eq] at ha
      rw [hpq_eq] at he
      rcases List.mem_append.mp he with he | he
      · exact hbase.settled_stale a ha e he hev
      · simp only [List.mem_singleton] at he
        subst he
        have hav : a.2 = v := hev.symm
        exact absurd (hav ▸ List.mem_map_of_mem Prod.snd ha) hvunsett
    · intro x
      rw [hpq_eq, List.filter_append]
      by_cases hx : v = x
      · subst hx
        have hfil : List.filter (fun e => decide (e.2 = v)) [((du + w : ℚ), v)] =
            [((du + w : ℚ), v)] := by simp
        rw [hfil, List.map_append]
        refine List.Nodup.append (hbase.pq_strict v) (by simp) ?_
        intro q hq hq2
        simp only [List.map_singleton, List.mem_singleton] at hq2
        subst hq2
        rcases List.mem_map.mp hq with ⟨e, he, he2⟩
        have hev : e.2 = v := by
          have := List.of_mem_filter he
          exact of_decide_eq_true this
        rcases hbase.pq_bound e (List.mem_of_mem_filter he) with ⟨dv', hdv', hle', _⟩
        rw [hev, hv] at hdv'
        cases hdv'
        have : du + w < e.1 := by
          have h2 : ((du + w : ℚ) : WithTop ℚ) < ((e.1 : ℚ) : WithTop ℚ) :=
            lt_of_lt_of_le hlt hle'
          exact_mod_cast h2
        linarith
      · have hfil : List.filter (fun e => decide (e.2 = x)) [((du + w : ℚ), v)] = [] := by
          simp [hx]
        rw [hfil, List.append_nil]
        exact hbase.pq_strict x
    · intro x hx
      rw [lprev]
      by_cases hxv : x = v
      · simp [hxv]
      · rw [if_neg hxv]
        exact hbase.prev_keys x hx
    · intro x ux h
      rw [lprev] at h
      by_cases hxv : x = v
      · rw [if_pos hxv] at h
        cases h
        subst hxv
        refine ⟨w, hedge, du, ?_, ?_, ?_, ?_⟩
        · rw [ldist, if_neg hvu.symm]
          · exact hu
        · rw [ldist, if_pos rfl]
        · rw [hsn_eq]
          exact husett
        · rw [hsn_eq]
          intro hvs
          exact absurd hvs hvunsett
      · rw [if_neg hxv] at h
        rcases hbase.prev_spec x ux h with ⟨w', hw', du', hdu', hdx', hus', hidx'⟩
        have huxv : ux ≠ v := by
          rintro rfl
          exact hvunsett hus'
        refine ⟨w', hw', du', ?_, ?_, ?_, ?_⟩
        · rw [ldist, if_neg huxv]
          exact hdu'
        · rw [ldist, if_neg hxv]
          exact hdx'
        · rw [hsn_eq]
          exact hus'
        · rw [hsn_eq]
          exact hidx'
    · intro x h hne
      rw [lprev] at h
      by_cases hxv : x = v
      · rw [if_pos hxv] at h
        cases h
      · rw [if_neg hxv] at h
        rw [ldist, if_neg hxv]
        exact hbase.prev_none x h hne
    · intro x dx h hfin hne
      rw [ldist] at h
      by_cases hxv : x = v
      · refine ⟨u, ?_⟩
        rw [lprev, if_pos hxv]
      · rw [if_neg hxv] at h
        rcases hbase.finite_prev x dx h hfin hne with ⟨ux, hux⟩
        refine ⟨ux, ?_⟩
        rw [lprev, if_neg hxv]
        exact hux
    · intro x dx h hfin
      rw [ldist] at h
      by_cases hxv : x = v
      · subst hxv
        have hreach_u : Reach G origen u :=
          hbase.reach_finite u _ hu (by exact WithTop.coe_ne_top)
        exact hreach_u.tail ⟨w, hedge⟩
      · rw [if_neg hxv] at h
        exact hbase.reach_finite x dx h hfin
  · intro x hxu dx hdx
    rw [ldist] at hdx
    by_cases hxv : x = v
    · rw [if_pos hxv] at hdx
      cases hdx
      refine Or.inr (Or.inl ⟨((du + w : ℚ), v), ?_, hxv.symm, rfl⟩)
      rw [hpq_eq]
      exact List.mem_append_right _ (by simp)
    · rw [if_neg hxv] at hdx
      rcases hroq x hxu dx hdx with h | ⟨e, he, he2, he3⟩ | h
      · exact Or.inl h
      · refine Or.inr (Or.inl ⟨e, ?_, he2, he3⟩)
        rw [hpq_eq]
        exact List.mem_append_left _ he
      · refine Or.inr (Or.inr ?_)
        intro p hp
        rcases h p hp with ⟨dx1, hdx1, hle1⟩
        by_cases hpv : p.1 = v
        · refine ⟨((du + w : ℚ) : WithTop ℚ), by rw [ldist, if_pos hpv], ?_⟩
          rw [hpv, hv] at hdx1
          cases hdx1
          exact le_trans (le_of_lt hlt) hle1
        · exact ⟨dx1, by rw [ldist, if_neg hpv]; exact hdx1, hle1⟩

set_option maxHeartbeats 1000000 in
theorem relax_spec (G : GrafoDirigido) (origen u : ℕ) (du : ℚ) (hnn : NonnegWeights G) :
    ∀ (l : List (ℕ × ℚ)) (st st' : DState),
    relaxEdges u du l st = some st' →
    (∀ p ∈ l, p ∈ G.vecinos u) →
    DBase G origen st →
    (∀ x, x ≠ u → RoQ G st x) →
    st.dist.lookup u = some ((du : ℚ) : WithTop ℚ) →
    (0 : ℚ) ≤ du →
    u ∈ settledNodes st →
    (∀ a ∈ st.settled, a.1 ≤ du) →
    DBase G origen st' ∧ (∀ x, x ≠ u → RoQ G st' x) ∧
      st'.dist.lookup u = some ((du : ℚ) : WithTop ℚ) ∧
      st'.settled = st.settled ∧
      (∀ x dx', st'.dist.lookup x = some dx' →
        ∃ dx, st.dist.lookup x = some dx ∧ dx' ≤ dx) ∧
      (∀ p ∈ l, ∃ dx, st'.dist.lookup p.1 = some dx ∧
        dx ≤ ((du + p.2 : ℚ) : WithTop ℚ)) := by
  intro l
  induction l with
  | nil =>
    intro st st' h _ hbase hroq hu hdu0 husett hsle
    cases h
    refine ⟨hbase, hroq, hu, rfl, ?_, ?_⟩
    · intro x dx' h
      exact ⟨dx', h, le_refl _⟩
    · intro p hp
      cases hp
  | cons vw rest ih =>
    intro st st' h hsub hbase hroq hu hdu0 husett hsle
    obtain ⟨v, w⟩ := vw
    have hedge : (v, w) ∈ G.vecinos u := hsub (v, w) (by simp)
    have hw0 : (0 : ℚ) ≤ w := hnn u (v, w) hedge
    rcases hv : st.dist.lookup v with _ | dv
    · simp only [relaxEdges, hv] at h
      cases h
    · simp only [relaxEdges, hv] at h
      by_cases hlt : ((du + w : ℚ) : WithTop ℚ) < dv
      · rw [if_pos hlt] at h
        have hvu : v ≠ u := by
          rintro rfl
          rw [hv] at hu
          cases hu
          have : du + w < du := by exact_mod_cast hlt
          linarith
        obtain ⟨hbase1, hroq1⟩ :=
          update_step G origen u st du w v dv hnn hedge hbase hroq hu hdu0 husett hsle hv hlt
        have h1 : relaxEdges u du rest (relaxUpd st u v (du + w)) = some st' := h
        have hu1 : (relaxUpd st u v (du + w)).dist.lookup u =
            some ((du : ℚ) : WithTop ℚ) := by
          rw [relaxUpd_dist, if_neg hvu.symm]
          · exact hu
        have husett1 : u ∈ settledNodes (relaxUpd st u v (du + w)) := husett
        have hsle1 : ∀ a ∈ (relaxUpd st u v (du + w)).settled, a.1 ≤ du := hsle
        obtain ⟨hb', hr', hu', hset', hmono', hproc'⟩ :=
          ih (relaxUpd st u v (du + w)) st' h1 (fun p hp => hsub p (by simp [hp]))
            hbase1 hroq1 hu1 hdu0 husett1 hsle1
        refine ⟨hb', hr', hu', hset', ?_, ?_⟩
        · intro x dx' hx
          rcases hmono' x dx' hx with ⟨dx1, hdx1, hle1⟩
          rw [relaxUpd_dist] at hdx1
          by_cases hxv : x = v
          · rw [if_pos hxv] at hdx1
            cases hdx1
            refine ⟨dv, hxv ▸ hv, le_trans hle1 (le_of_lt hlt)⟩
          · rw [if_neg hxv] at hdx1
            exact ⟨dx1, hdx1, hle1⟩
        · intro p hp
          rcases List.mem_cons.mp hp with rfl | hp
          · have hvsome : ((relaxUpd st u v (du + w)).dist.lookup v).isSome := by
              rw [relaxUpd_dist]
              simp
            have hvsome' : (st'.dist.lookup v).isSome := by
              rw [hb'.dist_keys]
              exact (hbase1.dist_keys v).mp hvsome
            rcases Option.isSome_iff_exists.mp hvsome' with ⟨dx', hdx'⟩
            rcases hmono' v dx' hdx' with ⟨dx1, hdx1, hle1⟩
            rw [relaxUpd_dist, if_pos rfl] at hdx1
            cases hdx1
            exact ⟨dx', hdx', hle1⟩
          · exact hproc' p hp
      · rw [if_neg hlt] at h
        obtain ⟨hb', hr', hu', hset', hmono', hproc'⟩ :=
          ih st st' h (fun p hp => hsub p (by simp [hp])) hbase hroq hu hdu0 husett hsle
        refine ⟨hb', hr', hu', hset', hmono', ?_⟩
        intro p hp
        rcases List.mem_cons.mp hp with rfl | hp
        · have hvsome' : (st'.dist.lookup v).isSome := by
            rw [hb'.dist_keys]
            exact (hbase.dist_keys v).mp (by rw [hv]; rfl)
          rcases Option.isSome_iff_exists.mp hvsome' with ⟨dx', hdx'⟩
          rcases hmono' v dx' hdx' with ⟨dx1, hdx1, hle1⟩
          rw [hv] at hdx1
          cases hdx1
          exact ⟨dx', hdx', le_trans hle1 (not_lt.mp hlt)⟩
        · exact hproc' p hp

theorem indexOf_append_notMem (l1 l2 : List ℕ) (v : ℕ) (h : v ∉ l1) :
    (l1 ++ l2).indexOf v = l1.length + l2.indexOf v := by
  induction l1 with
  | nil => simp
  | cons x xs ih =>
    have hvx : x ≠ v := by
      intro hx
      exact h (by simp [hx])
    have hxs : v ∉ xs := fun hx => h (by simp [hx])
    simp only [List.cons_append, List.indexOf_cons, hvx, List.length_cons]
    rw [ih hxs]
    simp [beq_eq_false_iff_ne.mpr hvx]
    omega

theorem pq_strict_rest (pq rest : List (ℚ × ℕ)) (d : ℚ) (u : ℕ)
    (hperm : pq.Perm ((d, u) :: rest))
    (hstrict : ∀ v : ℕ, ((pq.filter (fun e => e.2 = v)).map Prod.fst).Nodup) :
    ∀ v : ℕ, ((rest.filter (fun e => e.2 = v)).map Prod.fst).Nodup := by
  intro v
  have hperm2 : (pq.filter (fun e => e.2 = v)).Perm
      (((d, u) :: rest).filter (fun e => e.2 = v)) := hperm.filter _
  have hnd : ((((d, u) :: rest).filter (fun e => e.2 = v)).map Prod.fst).Nodup :=
    (hstrict v).perm (hperm2.map Prod.fst)
  have hs : List.Sublist (rest.filter (fun e => e.2 = v))
      (((d, u) :: rest).filter (fun e => e.2 = v)) := by
    rw [List.filter_cons]
    split
    · exact List.sublist_cons_self _ _
    · exact List.Sublist.refl _
  exact hnd.sublist (hs.map Prod.fst)

theorem mem_pq_of_mem_rest (pq rest : List (ℚ × ℕ)) (d : ℚ) (u : ℕ)
    (hperm : pq.Perm ((d, u) :: rest)) :
    ∀ e ∈ rest, e ∈ pq :=
  fun e he => hperm.symm.subset (List.mem_cons_of_mem _ he)

theorem mem_rest_of_ne (pq rest : List (ℚ × ℕ)) (d : ℚ) (u : ℕ)
    (hperm : pq.Perm ((d, u) :: rest)) :
    ∀ e ∈ pq, e ≠ (d, u) → e ∈ rest := by
  intro e he hne
  rcases List.mem_cons.mp (hperm.subset he) with h | h
  · exact absurd h hne
  · exact h

set_option maxHeartbeats 1000000 in
theorem stale_step (G : GrafoDirigido) (origen : ℕ) (st : DState) (d : ℚ) (u : ℕ)
    (rest : List (ℚ × ℕ)) (du : WithTop ℚ)
    (hpop : popMin st.pq = some ((d, u), rest))
    (hdu : st.dist.lookup u = some du)
    (hlt : du < ((d : ℚ) : WithTop ℚ))
    (hinv : DInv G origen st) :
    DInv G origen { st with pq := rest } := by
  obtain ⟨hbase, hroq⟩ := hinv
  obtain ⟨hperm, hmin⟩ := popMin_spec st.pq ((d, u)) rest hpop
  have hmemrest := mem_pq_of_mem_rest st.pq rest d u hperm
  constructor
  · constructor
    · exact hbase.dist_keys
    · exact hbase.dist_nonneg
    · exact hbase.origen_zero
    · intro e he
      exact hbase.pq_bound e (hmemrest e he)
    · exact hbase.settled_sorted
    · intro a ha e he
      exact hbase.settled_le_pq a ha e (hmemrest e he)
    · exact hbase.settled_nodup
    · exact hbase.settled_dist
    · intro a ha e he hev
      exact hbase.settled_stale a ha e (hmemrest e he) hev
    · exact pq_strict_rest st.pq rest d u hperm hbase.pq_strict
    · exact hbase.prev_keys
    · exact hbase.prev_spec
    · exact hbase.prev_none
    · exact hbase.finite_prev
    · exact hbase.reach_finite
  · intro x dx hdx
    rcases hroq x dx hdx with h | ⟨e, he, he2, he3⟩ | h
    · exact Or.inl h
    · refine Or.inr (Or.inl ⟨e, ?_, he2, he3⟩)
      refine mem_rest_of_ne st.pq rest d u hperm e he ?_
      rintro rfl
      have hxu : x = u := he2.symm
      subst hxu
      have hdx' : List.lookup x st.dist = some dx := hdx
      rw [hdu] at hdx'
      cases hdx'
      exact absurd he3.symm (ne_of_lt hlt)
    · exact Or.inr (Or.inr h)

set_option maxHeartbeats 1000000 in
theorem settle_step (G : GrafoDirigido) (origen : ℕ) (st : DState) (d : ℚ) (u : ℕ)
    (rest : List (ℚ × ℕ)) (du : WithTop ℚ)
    (hpop : popMin st.pq = some ((d, u), rest))
    (hdu : st.dist.lookup u = some du)
    (hnlt : ¬ du < ((d : ℚ) : WithTop ℚ))
    (hinv : DInv G origen st) :
    DBase G origen { st with pq := rest, settled := st.settled ++ [(d, u)] } ∧
    (∀ x, x ≠ u → RoQ G { st with pq := rest, settled := st.settled ++ [(d, u)] } x) ∧
    st.dist.lookup u = some ((d : ℚ) : WithTop ℚ) ∧
    (0 : ℚ) ≤ d ∧
    u ∈ settledNodes { st with pq := rest, settled := st.settled ++ [(d, u)] } ∧
    (∀ a ∈ ({ st with pq := rest, settled := st.settled ++ [(d, u)] } : DState).settled,
      a.1 ≤ d) := by
  obtain ⟨hbase, hroq⟩ := hinv
  obtain ⟨hperm, hmin⟩ := popMin_spec st.pq ((d, u)) rest hpop
  have hmemrest := mem_pq_of_mem_rest st.pq rest d u hperm
  have hmemdu : (d, u) ∈ st.pq := hperm.symm.subset (List.mem_cons_self _ _)
  rcases hbase.pq_bound (d, u) hmemdu with ⟨du', hdu', hle', h0'⟩
  rw [hdu] at hdu'
  cases hdu'
  have hdueq : du = ((d : ℚ) : WithTop ℚ) := le_antisymm hle' (not_lt.mp hnlt)
  have hsle_old : ∀ a ∈ st.settled, a.1 ≤ d := fun a ha =>
    hbase.settled_le_pq a ha (d, u) hmemdu
  have husett_new : u ∉ settledNodes st := by
    intro hmem
    rcases List.mem_map.mp hmem with ⟨a, ha, ha2⟩
    have h1 := hbase.settled_stale a ha (d, u) hmemdu ha2.symm
    have h2 := hbase.settled_dist a ha
    have h3 : du = ((a.1 : ℚ) : WithTop ℚ) := by
      rw [ha2, hdu] at h2
      exact Option.some_inj.mp h2
    rw [hdueq] at h3
    have h4 : d = a.1 := by exact_mod_cast h3
    rw [h4] at h1
    exact absurd h1 (lt_irrefl _)
  have hsn : settledNodes
      ({ st with pq := rest, settled := st.settled ++ [(d, u)] } : DState) =
      settledNodes st ++ [u] := by
    simp [settledNodes]
  refine ⟨?_, ?_, by rw [hdu, hdueq], h0', ?_, ?_⟩
  · constructor
    · exact hbase.dist_keys
    · exact hbase.dist_nonneg
    · exact hbase.origen_zero
    · intro e he
      exact hbase.pq_bound e (hmemrest e he)
    · show (st.settled ++ [(d, u)]).Pairwise (fun a b => a.1 ≤ b.1)
      rw [List.pairwise_append]
      refine ⟨hbase.settled_sorted, List.pairwise_singleton _ _, ?_⟩
      intro a ha b hb
      simp only [List.mem_singleton] at hb
      subst hb
      exact hsle_old a ha
    · intro a ha e he
      rcases List.mem_append.mp ha with ha | ha
      · exact hbase.settled_le_pq a ha e (hmemrest e he)
      · simp only [List.mem_singleton] at ha
        subst ha
        exact pqLe_fst _ _ (hmin e (hmemrest e he))
    · rw [hsn]
      refine List.Nodup.append hbase.settled_nodup (List.nodup_singleton u) ?_
      intro x hx hx2
      simp only [List.mem_singleton] at hx2
      subst hx2
      exact husett_new hx
    · intro a ha
      rcases List.mem_append.mp ha with ha | ha
      · exact hbase.settled_dist a ha
      · simp only [List.mem_singleton] at ha
        subst ha
        show st.dist.lookup u = some ((d : ℚ) : WithTop ℚ)
        rw [hdu, hdueq]
    · intro a ha e he hev
      rcases List.mem_append.mp ha with ha | ha
      · exact hbase.settled_stale a ha e (hmemrest e he) hev
      · simp only [List.mem_singleton] at ha
        subst ha
        rcases hmin e (hmemrest e he) with hcase | ⟨heq, _⟩
        · exact hcase
        · exfalso
          have hfilperm : (st.pq.filter (fun e2 => e2.2 = u)).Perm
              (((d, u) :: rest).filter (fun e2 => e2.2 = u)) := hperm.filter _
          have hcons : ((d, u) :: rest).filter (fun e2 => e2.2 = u) =
              (d, u) :: rest.filter (fun e2 => e2.2 = u) := by
            simp [List.filter_cons]
          have hnd := (hbase.pq_strict u).perm (hfilperm.map Prod.fst)
          rw [hcons] at hnd
          simp only [List.map_cons] at hnd
          apply (List.nodup_cons.mp hnd).1
          refine List.mem_map.mpr ⟨e, ?_, heq.symm⟩
          refine List.mem_filter.mpr ⟨he, ?_⟩
          simpa using hev
    · exact pq_strict_rest st.pq rest d u hperm hbase.pq_strict
    · exact hbase.prev_keys
    · intro v uv h
      rcases hbase.prev_spec v uv h with ⟨w, hw, du2, hdu2, hdv2, hus2, hidx2⟩
      refine ⟨w, hw, du2, hdu2, hdv2, ?_, ?_⟩
      · rw [hsn]
        exact List.mem_append_left _ hus2
      · rw [hsn]
        intro hv2
        have hidxuv : (settledNodes st ++ [u]).indexOf uv =
            (settledNodes st).indexOf uv := List.indexOf_append_of_mem hus2
        rcases List.mem_append.mp hv2 with hv2 | hv2
        · rw [hidxuv, List.indexOf_append_of_mem hv2]
          exact hidx2 hv2
        · simp only [List.mem_singleton] at hv2
          subst hv2
          rw [hidxuv, indexOf_append_notMem _ _ _ husett_new]
          have := List.indexOf_lt_length.mpr hus2
          omega
    · exact hbase.prev_none
    · exact hbase.finite_prev
    · exact hbase.reach_finite
  · intro x hxu dx hdx
    have hdx' : st.dist.lookup x = some dx := hdx
    rcases hroq x dx hdx' with h | ⟨e, he, he2, he3⟩ | h
    · exact Or.inl h
    · refine Or.inr (Or.inl ⟨e, ?_, he2, he3⟩)
      refine mem_rest_of_ne st.pq rest d u hperm e he ?_
      rintro rfl
      exact hxu he2.symm
    · exact Or.inr (Or.inr h)
  · rw [hsn]
    exact List.mem_append_right _ (by simp)
  · intro a ha
    rcases List.mem_append.mp ha with ha | ha
    · exact hsle_old a ha
    · simp only [List.mem_singleton] at ha
      subst ha
      exact le_refl _


theorem dijkstraLoop_empty (G : GrafoDirigido) (fuel : ℕ) (st : DState)
    (hpop : popMin st.pq = none) : dijkstraLoop G fuel st = some st := by
  unfold dijkstraLoop
  rw [hpop]

theorem dijkstraLoop_zero (G : GrafoDirigido) (st : DState) (d : ℚ) (u : ℕ)
    (rest : List (ℚ × ℕ)) (hpop : popMin st.pq = some ((d, u), rest)) :
    dijkstraLoop G 0 st = none := by
  unfold dijkstraLoop
  rw [hpop]

theorem dijkstraLoop_key_none (G : GrafoDirigido) (st : DState) (d : ℚ) (u : ℕ)
    (rest : List (ℚ × ℕ)) (fuel' : ℕ)
    (hpop : popMin st.pq = some ((d, u), rest))
    (hdu : st.dist.lookup u = none) :
    dijkstraLoop G (fuel' + 1) st = none := by
  conv_lhs => unfold dijkstraLoop
  rw [hpop]
  show (match st.dist.lookup u with
    | none => none
    | some du =>
      if du < ((d : ℚ) : WithTop ℚ) then dijkstraLoop G fuel' { st with pq := rest }
      else
        match relaxEdges u d (G.vecinos u)
            { st with pq := rest, settled := st.settled ++ [(d, u)] } with
        | none => none
        | some st' => dijkstraLoop G fuel' st') = none
  rw [hdu]

theorem dijkstraLoop_stale (G : GrafoDirigido) (st : DState) (d : ℚ) (u : ℕ)
    (rest : List (ℚ × ℕ)) (fuel' : ℕ) (du : WithTop ℚ)
    (hpop : popMin st.pq = some ((d, u), rest))
    (hdu : st.dist.lookup u = some du)
    (hlt : du < ((d : ℚ) : WithTop ℚ)) :
    dijkstraLoop G (fuel' + 1) st = dijkstraLoop G fuel' { st with pq := rest } := by
  conv_lhs => unfold dijkstraLoop
  rw [hpop]
  show (match st.dist.lookup u with
    | none => none
    | some du =>
      if du < ((d : ℚ) : WithTop ℚ) then dijkstraLoop G fuel' { st with pq := rest }
      else
        match relaxEdges u d (G.vecinos u)
            { st with pq := rest, settled := st.settled ++ [(d, u)] } with
        | none => none
        | some st' => dijkstraLoop G fuel' st') = _
  rw [hdu]
  exact if_pos hlt

theorem dijkstraLoop_settle (G : GrafoDirigido) (st : DState) (d : ℚ) (u : ℕ)
    (rest : List (ℚ × ℕ)) (fuel' : ℕ) (du : WithTop ℚ)
    (hpop : popMin st.pq = some ((d, u), rest))
    (hdu : st.dist.lookup u = some du)
    (hnlt : ¬ du < ((d : ℚ) : WithTop ℚ)) :
    dijkstraLoop G (fuel' + 1) st =
      match relaxEdges u d (G.vecinos u)
          { st with pq := rest, settled := st.settled ++ [(d, u)] } with
      | none => none
      | some st' => dijkstraLoop G fuel' st' := by
  conv_lhs => unfold dijkstraLoop
  rw [hpop]
  show (match st.dist.lookup u with
    | none => none
    | some du =>
      if du < ((d : ℚ) : WithTop ℚ) then dijkstraLoop G fuel' { st with pq := rest }
      else
        match relaxEdges u d (G.vecinos u)
            { st with pq := rest, settled := st.settled ++ [(d, u)] } with
        | none => none
        | some st' => dijkstraLoop G fuel' st') = _
  rw [hdu]
  exact if_neg hnlt

set_option maxHeartbeats 1000000 in
theorem loop_spec (G : GrafoDirigido) (origen : ℕ) (hnn : NonnegWeights G) :
    ∀ (fuel : ℕ) (st st' : DState),
    dijkstraLoop G fuel st = some st' → DInv G origen st →
    DInv G origen st' ∧ st'.pq = [] ∧
      (∃ tail, st'.settled = st.settled ++ tail) ∧
      (∀ x dx', st'.dist.lookup x = some dx' →
        ∃ dx, st.dist.lookup x = some dx ∧ dx' ≤ dx) := by
  intro fuel
  induction fuel with
  | zero =>
    intro st st' h hinv
    rcases hpop : popMin st.pq with _ | ⟨⟨d, u⟩, rest⟩
    · rw [dijkstraLoop_empty G 0 st hpop] at h
      cases h
      exact ⟨hinv, (popMin_none _).mp hpop, ⟨[], by simp⟩,
        fun x dx' h => ⟨dx', h, le_refl _⟩⟩
    · rw [dijkstraLoop_zero G st d u rest hpop] at h
      cases h
  | succ fuel' ih =>
    intro st st' h hinv
    rcases hpop : popMin st.pq with _ | ⟨⟨d, u⟩, rest⟩
    · rw [dijkstraLoop_empty G _ st hpop] at h
      cases h
      exact ⟨hinv, (popMin_none _).mp hpop, ⟨[], by simp⟩,
        fun x dx' h => ⟨dx', h, le_refl _⟩⟩
    · rcases hdu : st.dist.lookup u with _ | du
      · rw [dijkstraLoop_key_none G st d u rest fuel' hpop hdu] at h
        cases h
      · by_cases hlt : du < ((d : ℚ) : WithTop ℚ)
        · rw [dijkstraLoop_stale G st d u rest fuel' du hpop hdu hlt] at h
          have hinv1 := stale_step G origen st d u rest du hpop hdu hlt hinv
          obtain ⟨hi', hpq', ⟨tail, hst'⟩, hmono'⟩ := ih _ st' h hinv1
          refine ⟨hi', hpq', ⟨tail, hst'⟩, ?_⟩
          intro x dx' hx
          exact hmono' x dx' hx
        · rw [dijkstraLoop_settle G st d u rest fuel' du hpop hdu hlt] at h
          obtain ⟨hb2, hr2, hu2, hd0, hus2, hsle2⟩ :=
            settle_step G origen st d u rest du hpop hdu hlt hinv
          rcases hrel : relaxEdges u d (G.vecinos u)
              { st with pq := rest, settled := st.settled ++ [(d, u)] } with _ | st3
          · rw [hrel] at h
            cases h
          · rw [hrel] at h
            have hu2' : List.lookup u
                ({ st with pq := rest, settled := st.settled ++ [(d, u)] } : DState).dist =
                some ((d : ℚ) : WithTop ℚ) := hu2
            obtain ⟨hb3, hr3, hu3, hset3, hmono3, hproc3⟩ :=
              relax_spec G origen u d hnn (G.vecinos u) _ st3 hrel (fun p hp => hp)
                hb2 hr2 hu2' hd0 hus2 hsle2
            have hroq3 : ∀ v, RoQ G st3 v := by
              intro v
              by_cases hvu : v = u
              · subst hvu
                intro dv hdv
                rw [hu3] at hdv
                cases hdv
                refine Or.inr (Or.inr ?_)
                intro p hp
                rcases hproc3 p hp with ⟨dx, hdx, hle⟩
                refine ⟨dx, hdx, ?_⟩
                refine le_trans hle (le_of_eq ?_)
                push_cast
                rfl
              · exact hr3 v hvu
            obtain ⟨hi', hpq', ⟨tail, hst'⟩, hmono'⟩ := ih st3 st' h ⟨hb3, hroq3⟩
            refine ⟨hi', hpq', ⟨(d, u) :: tail, ?_⟩, ?_⟩
            · rw [hst', hset3]
              simp
            · intro x dx' hx
              rcases hmono' x dx' hx with ⟨dx3, hdx3, hle3⟩
              rcases hmono3 x dx3 hdx3 with ⟨dx2, hdx2, hle2⟩
              exact ⟨dx2, hdx2, le_trans hle3 hle2⟩

/-- C4: for nonnegative weights and a source that is a node, a completed
Dijkstra run gives the source distance zero, settles nodes at
non-decreasing distances, and assigns infinite distance to exactly the
nodes not reachable from the source; an unreachable target is a normal
result of a normal return, not an error. -/
theorem dijkstra_props (G : GrafoDirigido) (s : ℕ) (fuel : ℕ) (st : DState)
    (hnn : NonnegWeights G) (hs : s ∈ G.nodosIds)
    (hrun : dijkstra G s fuel = some st) :
    st.dist.lookup s = some ((0 : ℚ) : WithTop ℚ) ∧
    st.settled.Pairwise (fun a b => a.1 ≤ b.1) ∧
    ∀ t ∈ G.nodosIds, (st.dist.lookup t = some ⊤ ↔ ¬ Reach G s t) := by
  unfold dijkstra at hrun
  obtain ⟨⟨hb, hroq⟩, hpq, _, _⟩ := loop_spec G s hnn fuel _ st hrun (dinv_init G s)
  refine ⟨hb.origen_zero, hb.settled_sorted, ?_⟩
  have hfin : ∀ x, Reach G s x → ∃ dx, st.dist.lookup x = some dx ∧ dx ≠ ⊤ := by
    intro x hx
    induction hx with
    | refl => exact ⟨_, hb.origen_zero, WithTop.coe_ne_top⟩
    | tail hyz hedge ihy =>
      rcases ihy with ⟨dy, hdy, hdyfin⟩
      rcases hroq _ dy hdy with h | ⟨e, he, _⟩ | hrel
      · exact absurd h hdyfin
      · rw [hpq] at he
        cases he
      · rcases hedge with ⟨w, hw⟩
        rcases hrel (_, w) hw with ⟨dx, hdx, hle⟩
        refine ⟨dx, hdx, ?_⟩
        intro htop
        rw [htop] at hle
        have hne : dy + ((w : ℚ) : WithTop ℚ) ≠ ⊤ :=
          WithTop.add_ne_top.mpr ⟨hdyfin, WithTop.coe_ne_top⟩
        exact hne (top_le_iff.mp hle)
  intro t ht
  constructor
  · intro htop hreach
    rcases hfin t hreach with ⟨dt, hdt, hdtfin⟩
    rw [htop] at hdt
    cases hdt
    exact hdtfin rfl
  · intro hnreach
    have hsome : (st.dist.lookup t).isSome := (hb.dist_keys t).mpr (Or.inl ht)
    rcases Option.isSome_iff_exists.mp hsome with ⟨dt, hdt⟩
    rcases eq_or_ne dt ⊤ with rfl | hne
    · exact hdt
    · exact absurd (hb.reach_finite t dt hdt hne) hnreach

/-- A concrete two-node graph with one edge of weight one half, used to
exercise the Dijkstra theorems on a run that relaxes an edge. -/
def GW : GrafoDirigido := ⟨[(0, artU), (1, artU)], [(0, [(1, (1/2 : ℚ))])]⟩

/-- The initial Dijkstra state on GW with source 0, written out. -/
def st0GW : DState :=
  { dist := [(0, ((0 : ℚ) : WithTop ℚ)), (1, (⊤ : WithTop ℚ))],
    prev := [(0, (none : Option ℕ)), (1, (none : Option ℕ))],
    pq := [((0 : ℚ), 0)],
    settled := [] }

/-- The state of the GW run after node 0 is settled and its edge
relaxed. -/
def st1GW : DState :=
  { dist := [(0, ((0 : ℚ) : WithTop ℚ)), (1, ((((0 : ℚ) + 1/2 : ℚ)) : WithTop ℚ))],
    prev := [(0, (none : Option ℕ)), (1, some 0)],
    pq := [((0 : ℚ) + 1/2, 1)],
    settled := [((0 : ℚ), 0)] }

/-- The final state of the GW run: both nodes settled, queue empty. -/
def stFinGW : DState :=
  { dist := [(0, ((0 : ℚ) : WithTop ℚ)), (1, ((((0 : ℚ) + 1/2 : ℚ)) : WithTop ℚ))],
    prev := [(0, (none : Option ℕ)), (1, some 0)],
    pq := [],
    settled := [((0 : ℚ), 0), ((0 : ℚ) + 1/2, 1)] }

theorem relaxGW_step1 : relaxEdges 0 0 (GW.vecinos 0)
    { st0GW with pq := [], settled := st0GW.settled ++ [((0 : ℚ), 0)] } = some st1GW := by
  have hv : GW.vecinos 0 = [(1, (1/2 : ℚ))] := rfl
  rw [hv]
  simp only [relaxEdges]
  simp only [show ({ st0GW with pq := [], settled := st0GW.settled ++ [((0 : ℚ), 0)] } :
    DState).dist.lookup 1 = some (⊤ : WithTop ℚ) from rfl]
  rw [if_pos (WithTop.coe_lt_top _)]
  rfl

theorem relaxGW_step2 : relaxEdges 1 ((0 : ℚ) + 1/2) (GW.vecinos 1)
    { st1GW with pq := [], settled := st1GW.settled ++ [((0 : ℚ) + 1/2, 1)] } =
    some stFinGW := rfl

/-- The complete Dijkstra run on GW from source 0 with fuel 3. -/
theorem dijkstra_GW_run : dijkstra GW 0 3 = some stFinGW := by
  show dijkstraLoop GW 3 st0GW = some stFinGW
  rw [dijkstraLoop_settle GW st0GW 0 0 [] 2 ((0 : ℚ) : WithTop ℚ) rfl rfl (lt_irrefl _)]
  simp only [relaxGW_step1]
  rw [dijkstraLoop_settle GW st1GW ((0 : ℚ) + 1/2) 1 [] 1 ((((0 : ℚ) + 1/2 : ℚ)) : WithTop ℚ)
    rfl rfl (lt_irrefl _)]
  simp only [relaxGW_step2]
  exact dijkstraLoop_empty GW 1 stFinGW rfl

theorem nonneg_GW : NonnegWeights GW := by
  intro u p hp
  cases u with
  | zero =>
    have hv : GW.vecinos 0 = [(1, (1/2 : ℚ))] := rfl
    rw [hv] at hp
    simp only [List.mem_singleton] at hp
    subst hp
    norm_num
  | succ v =>
    have hv : GW.vecinos (v + 1) = [] := by
      show (List.lookup (v + 1) ((0, [(1, (1/2 : ℚ))]) :: [])).getD [] = []
      rw [lookup_cons_ne (v + 1) 0 _ _ (Nat.succ_ne_zero v)]
      rfl
    rw [hv] at hp
    cases hp

/-- The Dijkstra properties instantiated on the concrete GW run. -/
theorem dijkstra_props_witness :
    stFinGW.dist.lookup 0 = some ((0 : ℚ) : WithTop ℚ) ∧
    stFinGW.settled.Pairwise (fun a b => a.1 ≤ b.1) ∧
    ∀ t ∈ GW.nodosIds, (stFinGW.dist.lookup t = some ⊤ ↔ ¬ Reach GW 0 t) :=
  dijkstra_props GW 0 3 stFinGW nonneg_GW (by decide) dijkstra_GW_run


/-- Walking the predecessor map from any node with finite recorded
distance yields a path of the graph from the source, whose edge weights
telescope to the recorded distance; the walk is realised by reconGo for
any sufficient fuel. -/
theorem walk_lemma (G : GrafoDirigido) (s : ℕ) (st : DState) (hb : DBase G s st)
    (hs : s ∈ G.nodosIds) :
    ∀ n : ℕ, ∀ v : ℕ, ∀ dv : ℚ,
      (settledNodes st).indexOf v = n →
      st.dist.lookup v = some ((dv : ℚ) : WithTop ℚ) →
      (v ∈ G.nodosIds ∨ v = s) →
      ∃ P : List ℕ, P.head? = some s ∧ P.getLast? = some v ∧ PathCost G P dv ∧
        P ≠ [] ∧
        ∀ (k : ℕ) (acc : List ℕ), P.length ≤ k →
          reconGo st.prev k (some v) acc = some (P ++ acc.reverse) := by
  intro n
  induction n using Nat.strong_induction_on with
  | _ n ih =>
    intro v dv hidx hdv hvmem
    have hpk : (st.prev.lookup v).isSome := by
      rcases hvmem with h | rfl
      · exact hb.prev_keys v h
      · exact hb.prev_keys v hs
    rcases hpv : st.prev.lookup v with _ | pv
    · rw [hpv] at hpk
      cases hpk
    rcases pv with _ | u
    · have hvs : v = s := by
        by_contra hne
        rcases hb.finite_prev v _ hdv WithTop.coe_ne_top hne with ⟨u, hu⟩
        rw [hpv] at hu
        cases hu
      subst hvs
      have hdv0 : dv = 0 := by
        have h := Option.some_inj.mp (hdv.symm.trans hb.origen_zero)
        exact_mod_cast h
      refine ⟨[v], rfl, rfl, ?_, by simp, ?_⟩
      · rw [hdv0]
        exact PathCost.single v
      · intro k acc hk
        match k, hk with
        | k' + 1, _ =>
          show reconGo st.prev (k' + 1) (some v) acc = some ([v] ++ acc.reverse)
          simp only [reconGo, hpv]
          simp [reconGo, List.reverse_append]
    · rcases hb.prev_spec v u hpv with ⟨w, hw, du, hdu, hdveq, humem, hidxlt⟩
      have hdv2 : dv = du + w := by
        have h := Option.some_inj.mp (hdv.symm.trans hdveq)
        exact_mod_cast h
      have humem2 : u ∈ G.nodosIds ∨ u = s := by
        apply (hb.dist_keys u).mp
        rw [hdu]
        rfl
      have hlt : (settledNodes st).indexOf u < n := by
        rw [← hidx]
        by_cases hvset : v ∈ settledNodes st
        · exact hidxlt hvset
        · have h1 : (settledNodes st).indexOf u < (settledNodes st).length :=
            List.indexOf_lt_length.mpr humem
          have h2 : (settledNodes st).indexOf v = (settledNodes st).length :=
            List.indexOf_eq_length.mpr hvset
          rw [h2]
          exact h1
      obtain ⟨P, hhead, hlast, hcost, hne, hgo⟩ := ih _ hlt u du rfl hdu humem2
      refine ⟨P ++ [v], ?_, ?_, ?_, by simp, ?_⟩
      · cases P with
        | nil => exact absurd rfl hne
        | cons a P' => simpa using hhead
      · simp [List.getLast?_concat]
      · rw [hdv2]
        exact PathCost.append_edge G P du hcost u v w hlast hw
      · intro k acc hk
        cases k with
        | zero =>
          exfalso
          simp at hk
        | succ k' =>
          have hk' : P.length ≤ k' := by
            have : P.length + 1 ≤ k' + 1 := by simpa using hk
            omega
          show reconGo st.prev (k' + 1) (some v) acc = some (P ++ [v] ++ acc.reverse)
          simp only [reconGo, hpv]
          rw [hgo k' (acc ++ [v]) hk']
          simp

/-- C3: after a completed Dijkstra run on nonnegative weights, whenever
the recorded distance of a target node t is finite, reconstruir_camino
on the predecessor map yields a node sequence starting at the source and
ending at t that follows edges of G, and the sum of the weights of those
edges equals the recorded distance of t. -/
theorem dijkstra_path_reconstruction (G : GrafoDirigido) (s t fuel : ℕ) (st : DState)
    (dt : ℚ)
    (hnn : NonnegWeights G) (hs : s ∈ G.nodosIds) (ht : t ∈ G.nodosIds)
    (hrun : dijkstra G s fuel = some st)
    (hfin : st.dist.lookup t = some ((dt : ℚ) : WithTop ℚ)) :
    ∃ camino : List ℕ,
      (∀ f, camino.length ≤ f → reconstruirCamino st.prev t f = some camino) ∧
      camino.head? = some s ∧ camino.getLast? = some t ∧ PathCost G camino dt := by
  unfold dijkstra at hrun
  obtain ⟨⟨hb, _⟩, _, _, _⟩ := loop_spec G s hnn fuel _ st hrun (dinv_init G s)
  obtain ⟨P, hhead, hlast, hcost, hne, hgo⟩ :=
    walk_lemma G s st hb hs ((settledNodes st).indexOf t) t dt rfl hfin (Or.inl ht)
  refine ⟨P, ?_, hhead, hlast, hcost⟩
  intro f hf
  unfold reconstruirCamino
  have h := hgo f [] hf
  simpa using h

/-- The reconstruction property instantiated on the concrete GW run:
the reconstructed path to node 1 starts at 0, ends at 1, and costs the
recorded distance. -/
theorem dijkstra_path_reconstruction_witness :
    ∃ camino : List ℕ,
      (∀ f, camino.length ≤ f → reconstruirCamino stFinGW.prev 1 f = some camino) ∧
      camino.head? = some 0 ∧ camino.getLast? = some 1 ∧
      PathCost GW camino ((0 : ℚ) + 1/2) :=
  dijkstra_path_reconstruction GW 0 1 3 stFinGW ((0 : ℚ) + 1/2) nonneg_GW (by decide)
    (by decide) dijkstra_GW_run rfl


/-- A two-node graph with no edges: node 1 is unreachable from 0. -/
def G2n : GrafoDirigido := ⟨[(0, artU), (1, artU)], []⟩

/-- The final state of the Dijkstra run on G2n from source 0. -/
def stG2n : DState :=
  { dist := [(0, ((0 : ℚ) : WithTop ℚ)), (1, (⊤ : WithTop ℚ))],
    prev := [(0, (none : Option ℕ)), (1, (none : Option ℕ))],
    pq := [],
    settled := [((0 : ℚ), 0)] }

/-- G2n has no edges at all. -/
theorem no_edge_G2n : ∀ a b : ℕ, ¬ Edge G2n a b := by
  intro a b hab
  rcases hab with ⟨w, hw⟩
  have hv : G2n.vecinos a = [] := rfl
  rw [hv] at hw
  cases hw

/-- C6 counterexample: on the edgeless two-node graph, node 1 is
unreachable from source 0 and distinct from it, yet reconstruir_camino
returns the singleton [1], not an empty path. -/
theorem recon_singleton_counterexample :
    dijkstra G2n 0 2 = some stG2n ∧ ¬ Reach G2n 0 1 ∧ (1 : ℕ) ≠ 0 ∧
    reconstruirCamino stG2n.prev 1 1 = some [1] ∧ [1] ≠ ([] : List ℕ) := by
  refine ⟨by decide, ?_, by decide, by decide, by decide⟩
  intro h
  rcases Relation.ReflTransGen.cases_head h with h0 | ⟨c, hc, _⟩
  · cases h0
  · exact no_edge_G2n 0 c hc

/-- C6 (amended): after a completed Dijkstra run, reconstruir_camino
returns the singleton [t] for every node t whose recorded distance is
infinite, whether or not t equals the source; callers must check the
distance first to detect the no-path case. -/
theorem recon_unreachable (G : GrafoDirigido) (s t fuel : ℕ) (st : DState)
    (hnn : NonnegWeights G) (ht : t ∈ G.nodosIds)
    (hrun : dijkstra G s fuel = some st)
    (htop : st.dist.lookup t = some ⊤) :
    ∀ f, 1 ≤ f → reconstruirCamino st.prev t f = some [t] := by
  unfold dijkstra at hrun
  obtain ⟨⟨hb, _⟩, _, _, _⟩ := loop_spec G s hnn fuel _ st hrun (dinv_init G s)
  have hpk : (st.prev.lookup t).isSome := hb.prev_keys t ht
  rcases hpv : st.prev.lookup t with _ | pv
  · rw [hpv] at hpk
    cases hpk
  rcases pv with _ | u
  · intro f hf
    cases f with
    | zero => cases hf
    | succ f' =>
      show reconGo st.prev (f' + 1) (some t) [] = some [t]
      simp only [reconGo, hpv]
      simp [reconGo]
  · exfalso
    rcases hb.prev_spec t u hpv with ⟨w, hw, du, hdu, hdveq, _, _⟩
    rw [htop] at hdveq
    cases Option.some_inj.mp hdveq

/-- The edgeless graph trivially has nonnegative weights. -/
theorem nonneg_G2n : NonnegWeights G2n := by
  intro u p hp
  have hv : G2n.vecinos u = [] := rfl
  rw [hv] at hp
  cases hp

/-- The amended reconstruction behaviour instantiated on the concrete
G2n run at the unreachable node 1. -/
theorem recon_unreachable_witness :
    (1 : ℕ) ≤ 1 ∧ reconstruirCamino stG2n.prev 1 1 = some [1] :=
  ⟨by decide, recon_unreachable G2n 0 1 2 stG2n nonneg_G2n (by decide) (by decide) rfl
    1 (by decide)⟩


/-- Threaded read of the adjacency of u: dict.get with default returns
the value and leaves the dictionary unchanged. -/
def vecinosSt (G : GrafoDirigido) (u : ℕ) : List (ℕ × ℚ) × GrafoDirigido :=
  ((G.adj.lookup u).getD [], G)

/-- Threaded read of the node id list: listing dict keys leaves the
dictionary unchanged. -/
def nodosIdsSt (G : GrafoDirigido) : List ℕ × GrafoDirigido :=
  (G.nodos.map (·.1), G)

/-- The Dijkstra loop with the graph threaded through every adjacency
read, returning the final auxiliary state together with the graph as it
stands after the run. -/
def dijkstraLoopSt (fuel : ℕ) (st : DState) (G : GrafoDirigido) :
    Option (DState × GrafoDirigido) :=
  match popMin st.pq, fuel with
  | none, _ => some (st, G)
  | some _, 0 => none
  | some ((d, u), rest), fuel' + 1 =>
    match st.dist.lookup u with
    | none => none
    | some du =>
      if du < ((d : ℚ) : WithTop ℚ) then dijkstraLoopSt fuel' { st with pq := rest } G
      else
        match vecinosSt G u with
        | (ve, G1) =>
          match relaxEdges u d ve
              { st with pq := rest, settled := st.settled ++ [(d, u)] } with
          | none => none
          | some st' => dijkstraLoopSt fuel' st' G1

/-- Dijkstra with the graph threaded through every read. -/
def dijkstraSt (G : GrafoDirigido) (origen : ℕ) (fuel : ℕ) :
    Option (DState × GrafoDirigido) :=
  match nodosIdsSt G with
  | (ids, G1) =>
    let dist0 := ids.map (fun u => (u, (⊤ : WithTop ℚ)))
    let prev0 := ids.map (fun u => (u, (none : Option ℕ)))
    let dist1 := aset dist0 origen ((0 : ℚ) : WithTop ℚ)
    dijkstraLoopSt fuel
      { dist := dist1, prev := prev0, pq := [((0 : ℚ), origen)], settled := [] } G1

theorem dijkstraLoopSt_eq : ∀ (fuel : ℕ) (G : GrafoDirigido) (st : DState),
    dijkstraLoopSt fuel st G = (dijkstraLoop G fuel st).map (fun s => (s, G)) := by
  intro fuel
  induction fuel with
  | zero =>
    intro G st
    rcases hpop : popMin st.pq with _ | ⟨⟨d, u⟩, rest⟩
    · rw [dijkstraLoop_empty G 0 st hpop]
      conv_lhs => unfold dijkstraLoopSt
      rw [hpop]
      rfl
    · rw [dijkstraLoop_zero G st d u rest hpop]
      conv_lhs => unfold dijkstraLoopSt
      rw [hpop]
      rfl
  | succ fuel' ih =>
    intro G st
    conv_lhs => unfold dijkstraLoopSt
    rcases hpop : popMin st.pq with _ | ⟨⟨d, u⟩, rest⟩
    · rw [dijkstraLoop_empty G _ st hpop]
      rfl
    · show (match st.dist.lookup u with
        | none => none
        | some du =>
          if du < ((d : ℚ) : WithTop ℚ) then dijkstraLoopSt fuel' { st with pq := rest } G
          else
            match vecinosSt G u with
            | (ve, G1) =>
              match relaxEdges u d ve
                  { st with pq := rest, settled := st.settled ++ [(d, u)] } with
              | none => none
              | some st' => dijkstraLoopSt fuel' st' G1) =
        (dijkstraLoop G (fuel' + 1) st).map (fun s => (s, G))
      rcases hdu : st.dist.lookup u with _ | du
      · rw [dijkstraLoop_key_none G st d u rest fuel' hpop hdu]
        rfl
      · show (if du < ((d : ℚ) : WithTop ℚ) then dijkstraLoopSt fuel' { st with pq := rest } G
            else
              match vecinosSt G u with
              | (ve, G1) =>
                match relaxEdges u d ve
                    { st with pq := rest, settled := st.settled ++ [(d, u)] } with
                | none => none
                | some st' => dijkstraLoopSt fuel' st' G1) =
          (dijkstraLoop G (fuel' + 1) st).map (fun s => (s, G))
        by_cases hlt : du < ((d : ℚ) : WithTop ℚ)
        · rw [if_pos hlt, dijkstraLoop_stale G st d u rest fuel' du hpop hdu hlt]
          exact ih G { st with pq := rest }
        · rw [if_neg hlt, dijkstraLoop_settle G st d u rest fuel' du hpop hdu hlt]
          show (match relaxEdges u d (G.vecinos u)
              { st with pq := rest, settled := st.settled ++ [(d, u)] } with
            | none => none
            | some st' => dijkstraLoopSt fuel' st' G) = _
          rcases hrel : relaxEdges u d (G.vecinos u)
              { st with pq := rest, settled := st.settled ++ [(d, u)] } with _ | st2
          · rfl
          · exact ih G st2

theorem dijkstraSt_eq (G : GrafoDirigido) (origen fuel : ℕ) :
    dijkstraSt G origen fuel = (dijkstra G origen fuel).map (fun s => (s, G)) :=
  dijkstraLoopSt_eq fuel G _

/-- Concrete evaluation of Kosaraju on GW. -/
theorem kosaraju_gw_eval : kosarajuScc GW 5 = some [[0], [1]] := by decide

/-- Threaded first-pass neighbor loop. -/
def dfs1GoSt (f : ℕ → K1St → GrafoDirigido → Option (K1St × GrafoDirigido)) :
    List (ℕ × ℚ) → K1St → GrafoDirigido → Option (K1St × GrafoDirigido)
  | [], st, G => some (st, G)
  | (v, _) :: rest, st, G =>
    if v ∈ st.visit then dfs1GoSt f rest st G
    else
      match f v st G with
      | none => none
      | some (st', G') => dfs1GoSt f rest st' G'

/-- Threaded first-pass visit. -/
def dfs1FSt : ℕ → ℕ → K1St → GrafoDirigido → Option (K1St × GrafoDirigido)
  | 0, _, _, _ => none
  | fuel + 1, u, st, G =>
    match vecinosSt G u with
    | (ns, G1) =>
      match dfs1GoSt (dfs1FSt fuel) ns { st with visit := insert u st.visit } G1 with
      | none => none
      | some (st2, G2) => some ({ st2 with orden := st2.orden ++ [u] }, G2)

theorem dfs1Go_eq (G : GrafoDirigido) (f : ℕ → K1St → Option K1St)
    (fSt : ℕ → K1St → GrafoDirigido → Option (K1St × GrafoDirigido))
    (hf : ∀ u st, fSt u st G = (f u st).map (fun r => (r, G))) :
    ∀ l st, dfs1GoSt fSt l st G = (dfs1Go f l st).map (fun r => (r, G)) := by
  intro l
  induction l with
  | nil => intro st; rfl
  | cons p rest ih =>
    intro st
    obtain ⟨v, w⟩ := p
    show (if v ∈ st.visit then dfs1GoSt fSt rest st G
      else match fSt v st G with
        | none => none
        | some (st', G') => dfs1GoSt fSt rest st' G') =
      (if v ∈ st.visit then dfs1Go f rest st
        else match f v st with
          | none => none
          | some st' => dfs1Go f rest st').map (fun r => (r, G))
    by_cases hv : v ∈ st.visit
    · rw [if_pos hv, if_pos hv]
      exact ih st
    · rw [if_neg hv, if_neg hv, hf v st]
      rcases f v st with _ | st'
      · rfl
      · exact ih st'

theorem dfs1F_eq : ∀ (fuel : ℕ) (u : ℕ) (st : K1St) (G : GrafoDirigido),
    dfs1FSt fuel u st G = (dfs1F G fuel u st).map (fun r => (r, G)) := by
  intro fuel
  induction fuel with
  | zero => intro u st G; rfl
  | succ fuel' ih =>
    intro u st G
    show (match dfs1GoSt (dfs1FSt fuel') (G.vecinos u) { st with visit := insert u st.visit } G with
      | none => none
      | some (st2, G2) => some ({ st2 with orden := st2.orden ++ [u] }, G2)) =
      (match dfs1Go (dfs1F G fuel') (G.vecinos u) { st with visit := insert u st.visit } with
      | none => none
      | some st2 => some { st2 with orden := st2.orden ++ [u] }).map (fun r => (r, G))
    rw [dfs1Go_eq G (dfs1F G fuel') (dfs1FSt fuel') (fun u st => ih u st G)]
    rcases dfs1Go (dfs1F G fuel') (G.vecinos u) { st with visit := insert u st.visit } with _ | st2
    · rfl
    · rfl

/-- Threaded first pass. -/
def fase1St (G : GrafoDirigido) (fuel : ℕ) : Option (K1St × GrafoDirigido) :=
  match nodosIdsSt G with
  | (ids, G1) =>
    ids.foldlM
      (fun p u => if u ∈ p.1.visit then some p else dfs1FSt fuel u p.1 p.2)
      ((⟨∅, []⟩ : K1St), G1)

theorem fase1_fold_eq (fuel : ℕ) : ∀ (ids : List ℕ) (st : K1St) (G : GrafoDirigido),
    ids.foldlM
      (fun p u => if u ∈ p.1.visit then some p else dfs1FSt fuel u p.1 p.2) (st, G) =
    (ids.foldlM
      (fun s u => if u ∈ s.visit then some s else dfs1F G fuel u s) st).map
        (fun s => (s, G)) := by
  intro ids
  induction ids with
  | nil => intro st G; rfl
  | cons u rest ih =>
    intro st G
    by_cases hv : u ∈ st.visit
    · simp only [List.foldlM_cons, if_pos hv]
      exact ih st G
    · simp only [List.foldlM_cons, if_neg hv, dfs1F_eq fuel u st G]
      rcases dfs1F G fuel u st with _ | st'
      · rfl
      · exact ih st' G

theorem fase1St_eq (G : GrafoDirigido) (fuel : ℕ) :
    fase1St G fuel = (fase1 G fuel).map (fun s => (s, G)) :=
  fase1_fold_eq fuel G.nodosIds ⟨∅, []⟩ G

/-- Threaded transpose construction: each adjacency read returns the
graph unchanged, and the transpose accumulates locally. -/
def transpuestoSt (G : GrafoDirigido) : List (ℕ × List ℕ) × GrafoDirigido :=
  match nodosIdsSt G with
  | (ids, G1) =>
    ids.foldl
      (fun p u =>
        match vecinosSt p.2 u with
        | (ns, G2) => (ns.foldl (fun GT2 vw => dappend GT2 vw.1 u) p.1, G2))
      ([], G1)

theorem transp_fold_eq (G : GrafoDirigido) : ∀ (ids : List ℕ) (GT0 : List (ℕ × List ℕ)),
    ids.foldl
      (fun p u =>
        match vecinosSt p.2 u with
        | (ns, G2) => (ns.foldl (fun GT2 vw => dappend GT2 vw.1 u) p.1, G2)) (GT0, G) =
    (ids.foldl (fun GT u => (G.vecinos u).foldl (fun GT2 vw => dappend GT2 vw.1 u) GT) GT0,
      G) := by
  intro ids
  induction ids with
  | nil => intro GT0; rfl
  | cons u rest ih =>
    intro GT0
    rw [List.foldl_cons, List.foldl_cons]
    exact ih _

theorem transpuestoSt_eq (G : GrafoDirigido) : transpuestoSt G = (transpuesto G, G) :=
  transp_fold_eq G G.nodosIds []

/-- defaultdict read: return the stored list, or insert and return the
empty default when the key is missing. -/
def ddGet (GT : List (ℕ × List ℕ)) (u : ℕ) : List ℕ × List (ℕ × List ℕ) :=
  match GT.lookup u with
  | some l => (l, GT)
  | none => ([], GT ++ [(u, [])])

theorem lookup_append {α : Type} (l1 l2 : List (ℕ × α)) (k : ℕ) :
    (l1 ++ l2).lookup k =
      match l1.lookup k with
      | some v => some v
      | none => l2.lookup k := by
  induction l1 with
  | nil => rfl
  | cons p rest ih =>
    obtain ⟨k2, v⟩ := p
    by_cases h : k = k2
    · subst h
      rw [List.cons_append, lookup_cons_self, lookup_cons_self]
    · rw [List.cons_append, lookup_cons_ne k k2 v _ h, lookup_cons_ne k k2 v _ h, ih]

theorem ddGet_spec (GT GT' : List (ℕ × List ℕ)) (h : ∀ k, gtGet GT' k = gtGet GT k)
    (u : ℕ) :
    (ddGet GT' u).1 = gtGet GT u ∧ ∀ k, gtGet (ddGet GT' u).2 k = gtGet GT k := by
  unfold ddGet
  rcases hl : GT'.lookup u with _ | l
  · constructor
    · show ([] : List ℕ) = gtGet GT u
      rw [← h u]
      unfold gtGet
      rw [hl]
      rfl
    · intro k
      show gtGet (GT' ++ [(u, [])]) k = gtGet GT k
      rw [← h k]
      unfold gtGet
      rw [lookup_append]
      by_cases hk : k = u
      · subst hk
        rw [hl]
        rw [lookup_cons_self]
        rfl
      · rcases hk2 : GT'.lookup k with _ | l2
        · rw [lookup_cons_ne k u _ _ hk]
          rfl
        · rfl
  · constructor
    · show l = gtGet GT u
      rw [← h u]
      unfold gtGet
      rw [hl]
      rfl
    · intro k
      exact h k

/-- Threaded second-pass neighbor loop. -/
def dfs2GoSt (f : ℕ → K2St → List (ℕ × List ℕ) → Option (K2St × List (ℕ × List ℕ))) :
    List ℕ → K2St → List (ℕ × List ℕ) → Option (K2St × List (ℕ × List ℕ))
  | [], st, GT => some (st, GT)
  | w :: rest, st, GT =>
    if w ∈ st.visit then dfs2GoSt f rest st GT
    else
      match f w st GT with
      | none => none
      | some (st', GT') => dfs2GoSt f rest st' GT'

/-- Threaded second-pass visit, with the transpose dictionary threaded
through the defaultdict reads. -/
def dfs2FSt : ℕ → ℕ → K2St → List (ℕ × List ℕ) → Option (K2St × List (ℕ × List ℕ))
  | 0, _, _, _ => none
  | fuel + 1, u, st, GT =>
    match ddGet GT u with
    | (ns, GT1) =>
      dfs2GoSt (dfs2FSt fuel) ns { visit := insert u st.visit, comp := st.comp ++ [u] } GT1

theorem dfs2Go_eq (GT : List (ℕ × List ℕ)) (f : ℕ → K2St → Option K2St)
    (fSt : ℕ → K2St → List (ℕ × List ℕ) → Option (K2St × List (ℕ × List ℕ)))
    (hf : ∀ u st GT2, (∀ k, gtGet GT2 k = gtGet GT k) →
      ∃ GT3, fSt u st GT2 = (f u st).map (fun r => (r, GT3)) ∧
        ∀ k, gtGet GT3 k = gtGet GT k) :
    ∀ l st GT2, (∀ k, gtGet GT2 k = gtGet GT k) →
      ∃ GT3, dfs2GoSt fSt l st GT2 = (dfs2Go f l st).map (fun r => (r, GT3)) ∧
        ∀ k, gtGet GT3 k = gtGet GT k := by
  intro l
  induction l with
  | nil =>
    intro st GT2 h
    exact ⟨GT2, rfl, h⟩
  | cons w rest ih =>
    intro st GT2 h
    show ∃ GT3, (if w ∈ st.visit then dfs2GoSt fSt rest st GT2
      else match fSt w st GT2 with
        | none => none
        | some (st', GT') => dfs2GoSt fSt rest st' GT') =
      (if w ∈ st.visit then dfs2Go f rest st
        else match f w st with
          | none => none
          | some st' => dfs2Go f rest st').map (fun r => (r, GT3)) ∧
        ∀ k, gtGet GT3 k = gtGet GT k
    by_cases hw : w ∈ st.visit
    · obtain ⟨GT3, heq, h3⟩ := ih st GT2 h
      exact ⟨GT3, by rw [if_pos hw, if_pos hw]; exact heq, h3⟩
    · obtain ⟨GT1, heqF, h1⟩ := hf w st GT2 h
      rcases hfw : f w st with _ | st'
      · refine ⟨GT2, ?_, h⟩
        rw [if_neg hw, if_neg hw, heqF, hfw]
        rfl
      · obtain ⟨GT3, heqGo, h3⟩ := ih st' GT1 h1
        refine ⟨GT3, ?_, h3⟩
        rw [if_neg hw, if_neg hw, heqF, hfw]
        exact heqGo

theorem dfs2F_eq (GT : List (ℕ × List ℕ)) : ∀ (fuel u : ℕ) (st : K2St)
    (GT2 : List (ℕ × List ℕ)), (∀ k, gtGet GT2 k = gtGet GT k) →
    ∃ GT3, dfs2FSt fuel u st GT2 = (dfs2F GT fuel u st).map (fun r => (r, GT3)) ∧
      ∀ k, gtGet GT3 k = gtGet GT k := by
  intro fuel
  induction fuel with
  | zero =>
    intro u st GT2 h
    exact ⟨GT2, rfl, h⟩
  | succ fuel' ih =>
    intro u st GT2 h
    obtain ⟨hfst, hsnd⟩ := ddGet_spec GT GT2 h u
    rcases hdd : ddGet GT2 u with ⟨ns, GT1⟩
    simp only [hdd] at hfst hsnd
    obtain ⟨GT3, heq, h3⟩ := dfs2Go_eq GT (dfs2F GT fuel') (dfs2FSt fuel') ih ns
      { visit := insert u st.visit, comp := st.comp ++ [u] } GT1 hsnd
    refine ⟨GT3, ?_, h3⟩
    show (match ddGet GT2 u with
      | (ns, GT1) =>
        dfs2GoSt (dfs2FSt fuel') ns
          { visit := insert u st.visit, comp := st.comp ++ [u] } GT1) =
      (dfs2Go (dfs2F GT fuel') (gtGet GT u)
        { visit := insert u st.visit, comp := st.comp ++ [u] }).map (fun r => (r, GT3))
    rw [hdd, ← hfst]
    exact heq

/-- Threaded third pass, with the transpose dictionary threaded through
and returned (it is local state of the enclosing call). -/
def fase3St (GT : List (ℕ × List ℕ)) (orden : List ℕ) (fuel : ℕ) :
    Option ((Finset ℕ × List (List ℕ)) × List (ℕ × List ℕ)) :=
  orden.reverse.foldlM
    (fun q u =>
      if u ∈ q.1.1 then some q
      else
        match dfs2FSt fuel u ⟨q.1.1, []⟩ q.2 with
        | none => none
        | some (st, GT') => some ((st.visit, q.1.2 ++ [st.comp]), GT'))
    (((∅ : Finset ℕ), ([] : List (List ℕ))), GT)

theorem fase3_fold_eq (GT : List (ℕ × List ℕ)) (fuel : ℕ) :
    ∀ (l : List ℕ) (acc : Finset ℕ × List (List ℕ)) (GT2 : List (ℕ × List ℕ)),
    (∀ k, gtGet GT2 k = gtGet GT k) →
    ∃ GT3,
      l.foldlM
        (fun q u =>
          if u ∈ q.1.1 then some q
          else
            match dfs2FSt fuel u ⟨q.1.1, []⟩ q.2 with
            | none => none
            | some (st, GT') => some ((st.visit, q.1.2 ++ [st.comp]), GT')) (acc, GT2) =
      (l.foldlM
        (fun p u =>
          if u ∈ p.1 then some p
          else
            match dfs2F GT fuel u ⟨p.1, []⟩ with
            | none => none
            | some st => some (st.visit, p.2 ++ [st.comp])) acc).map (fun p => (p, GT3)) ∧
      ∀ k, gtGet GT3 k = gtGet GT k := by
  intro l
  induction l with
  | nil =>
    intro acc GT2 h
    exact ⟨GT2, rfl, h⟩
  | cons u rest ih =>
    intro acc GT2 h
    by_cases hu : u ∈ acc.1
    · obtain ⟨GT3, heq, h3⟩ := ih acc GT2 h
      refine ⟨GT3, ?_, h3⟩
      simp only [List.foldlM_cons, if_pos hu]
      exact heq
    · obtain ⟨GT1, heqF, h1⟩ := dfs2F_eq GT fuel u ⟨acc.1, []⟩ GT2 h
      rcases hfw : dfs2F GT fuel u ⟨acc.1, []⟩ with _ | st'
      · refine ⟨GT2, ?_, h⟩
        simp only [List.foldlM_cons, if_neg hu, heqF, hfw]
        rfl
      · obtain ⟨GT3, heqGo, h3⟩ := ih (st'.visit, acc.2 ++ [st'.comp]) GT1 h1
        refine ⟨GT3, ?_, h3⟩
        simp only [List.foldlM_cons, if_neg hu, heqF, hfw]
        exact heqGo

/-- Kosaraju with the graph threaded through every read: the first pass
and the transpose construction read the graph; the second pass runs on
the local transpose, which is discarded at the end. -/
def kosarajuSt (G : GrafoDirigido) (fuel : ℕ) :
    Option (List (List ℕ) × GrafoDirigido) :=
  match fase1St G fuel with
  | none => none
  | some (st1, G1) =>
    match transpuestoSt G1 with
    | (GT, G2) =>
      match fase3St GT st1.orden fuel with
      | none => none
      | some (p, _) => some (p.2, G2)

theorem kosarajuSt_eq (G : GrafoDirigido) (fuel : ℕ) :
    kosarajuSt G fuel = (kosarajuScc G fuel).map (fun c => (c, G)) := by
  unfold kosarajuSt kosarajuScc
  rw [fase1St_eq]
  rcases h1 : fase1 G fuel with _ | st1
  · rfl
  · show (match transpuestoSt G with
      | (GT, G2) =>
        match fase3St GT st1.orden fuel with
        | none => none
        | some (p, _) => some (p.2, G2)) =
      ((fase3 (transpuesto G) st1.orden fuel).map (fun x => x.2)).map (fun c => (c, G))
    rw [transpuestoSt_eq]
    obtain ⟨GT3, heq, _⟩ := fase3_fold_eq (transpuesto G) fuel st1.orden.reverse
      (∅, []) (transpuesto G) (fun k => rfl)
    show (match fase3St (transpuesto G) st1.orden fuel with
      | none => none
      | some (p, _) => some (p.2, G)) =
      ((fase3 (transpuesto G) st1.orden fuel).map (fun x => x.2)).map (fun c => (c, G))
    unfold fase3St fase3
    rw [heq]
    have hgen : ∀ (F : Option (Finset ℕ × List (List ℕ))),
        (match F.map (fun p => (p, GT3)) with
          | none => none
          | some (p, _) => some (p.2, G)) =
        (F.map (fun x => x.2)).map (fun c => (c, G)) := by
      intro F
      rcases F with _ | p
      · rfl
      · rfl
    exact hgen _

/-- C9: running dijkstra or kosaraju_scc on a graph leaves the graph
unchanged: in the state-threaded model of every graph access, the graph
returned after either query has the same node map and the same adjacency
structure, the pure result agrees, and all auxiliary state (distances,
predecessors, visitation sets, the transpose) is local to the call. -/
theorem queries_leave_graph_unchanged (G : GrafoDirigido) (s fuelD fuelK : ℕ) :
    (∀ st G', dijkstraSt G s fuelD = some (st, G') →
      G'.nodos = G.nodos ∧ G'.adj = G.adj ∧ dijkstra G s fuelD = some st) ∧
    (∀ comps G', kosarajuSt G fuelK = some (comps, G') →
      G'.nodos = G.nodos ∧ G'.adj = G.adj ∧ kosarajuScc G fuelK = some comps) := by
  constructor
  · intro st G' h
    rw [dijkstraSt_eq] at h
    rcases hd : dijkstra G s fuelD with _ | st0
    · rw [hd] at h
      cases h
    · rw [hd] at h
      simp only [Option.map_some'] at h
      obtain ⟨h1, h2⟩ := Prod.mk.injEq .. ▸ Option.some_inj.mp h
      subst h1
      subst h2
      exact ⟨rfl, rfl, rfl⟩
  · intro comps G' h
    rw [kosarajuSt_eq] at h
    rcases hk : kosarajuScc G fuelK with _ | c0
    · rw [hk] at h
      cases h
    · rw [hk] at h
      simp only [Option.map_some'] at h
      obtain ⟨h1, h2⟩ := Prod.mk.injEq .. ▸ Option.some_inj.mp h
      subst h1
      subst h2
      exact ⟨rfl, rfl, rfl⟩

/-- The frame property instantiated on the concrete graph GW for both
queries. -/
theorem queries_frame_witness :
    (GW.nodos = GW.nodos ∧ GW.adj = GW.adj ∧ dijkstra GW 0 3 = some stFinGW) ∧
    (GW.nodos = GW.nodos ∧ GW.adj = GW.adj ∧ kosarajuScc GW 5 = some [[0], [1]]) :=
  ⟨(queries_leave_graph_unchanged GW 0 3 5).1 stFinGW GW
      (by rw [dijkstraSt_eq, dijkstra_GW_run]; rfl),
   (queries_leave_graph_unchanged GW 0 3 5).2 [[0], [1]] GW
      (by rw [kosarajuSt_eq, kosaraju_gw_eval]; rfl)⟩


/-- Along a stack chain (deepest first, each shallower element has an
edge to the next deeper one), every element reaches the head. -/
theorem chain_reach (G : GrafoDirigido) : ∀ (Γ : List ℕ) (a : ℕ),
    List.Chain' (fun x y => Edge G y x) (a :: Γ) → ∀ g ∈ a :: Γ, Reach G g a := by
  intro Γ
  induction Γ with
  | nil =>
    intro a _ g hg
    rcases List.mem_singleton.mp hg with rfl
    exact Relation.ReflTransGen.refl
  | cons b Γ2 ih =>
    intro a hchain g hg
    have hba : Edge G b a := (List.chain'_cons.mp hchain).1
    have hchain2 : List.Chain' (fun x y => Edge G y x) (b :: Γ2) :=
      (List.chain'_cons.mp hchain).2
    rcases List.mem_cons.mp hg with rfl | hg2
    · exact Relation.ReflTransGen.refl
    · exact Relation.ReflTransGen.tail (ih b hchain2 g hg2) hba

/-- Splitting a reachability path at the first node that is not yet
finished: either the target is finished, or the path passes through a
grey node that guards the rest of the path. -/
theorem path_split (G : GrafoDirigido) (orden Γ : List ℕ) (visit : Finset ℕ)
    (hvis : visit = orden.toFinset ∪ Γ.toFinset)
    (hfc : ∀ x ∈ orden, ∀ p ∈ G.vecinos x, p.1 ∈ visit) :
    ∀ x y, Reach G x y → x ∈ orden →
      y ∈ orden ∨ ∃ g ∈ Γ, Reach G x g ∧ Reach G g y := by
  intro x y hreach
  induction hreach using Relation.ReflTransGen.head_induction_on with
  | refl => intro hx; exact Or.inl hx
  | @head a c hedge htail ih =>
    intro ha
    rcases hedge with ⟨w, hw⟩
    have hc : c ∈ visit := hfc a ha (c, w) hw
    rw [hvis] at hc
    rcases Finset.mem_union.mp hc with hc1 | hc2
    · rcases ih (List.mem_toFinset.mp hc1) with hy | ⟨g, hg, hcg, hgy⟩
      · exact Or.inl hy
      · exact Or.inr ⟨g, hg, Relation.ReflTransGen.head ⟨w, hw⟩ hcg, hgy⟩
    · exact Or.inr ⟨c, List.mem_toFinset.mp hc2,
        Relation.ReflTransGen.single ⟨w, hw⟩, htail⟩

/-- A grey anchor of x: a stack node that x reaches and that reaches x. -/
def EscAnchor (G : GrafoDirigido) (Γ : List ℕ) (x g : ℕ) : Prop :=
  g ∈ Γ ∧ Reach G x g ∧ Reach G g x

/-- x escapes: it has a grey anchor, and everything x reaches is either
finished or guarded by a grey anchor. -/
def MaxlE (G : GrafoDirigido) (Γ : List ℕ) (orden : List ℕ) (x : ℕ) : Prop :=
  (∃ g, EscAnchor G Γ x g) ∧
  ∀ y, Reach G x y → y ∈ orden ∨ ∃ g, EscAnchor G Γ x g ∧ Reach G g y

/-- x is dominated: some finished node z mutually reachable with x
finishes no earlier than anything x reaches. -/
def MaxlD (G : GrafoDirigido) (orden : List ℕ) (x : ℕ) : Prop :=
  ∃ z ∈ orden, Mutual G x z ∧
    ∀ y, Reach G x y → y ∈ orden ∧ orden.indexOf y ≤ orden.indexOf z

/-- Invariant of the first Kosaraju pass, parameterized by the ghost
grey stack (deepest node first). -/
structure K1Inv (G : GrafoDirigido) (Γ : List ℕ) (st : K1St) : Prop where
  visit_eq : st.visit = st.orden.toFinset ∪ Γ.toFinset
  orden_nodup : st.orden.Nodup
  gamma_nodup : Γ.Nodup
  gamma_disj : ∀ x ∈ Γ, x ∉ st.orden
  chain : List.Chain' (fun a b => Edge G b a) Γ
  fc : ∀ x ∈ st.orden, ∀ p ∈ G.vecinos x, p.1 ∈ st.visit
  maxl : ∀ x ∈ st.orden, MaxlD G st.orden x ∨ MaxlE G Γ st.orden x

theorem maxlD_extend (G : GrafoDirigido) (orden δ : List ℕ) (x : ℕ)
    (h : MaxlD G orden x) : MaxlD G (orden ++ δ) x := by
  obtain ⟨z, hz, hmut, hdom⟩ := h
  refine ⟨z, List.mem_append_left _ hz, hmut, ?_⟩
  intro y hy
  obtain ⟨hy1, hy2⟩ := hdom y hy
  refine ⟨List.mem_append_left _ hy1, ?_⟩
  rw [List.indexOf_append_of_mem hy1, List.indexOf_append_of_mem hz]
  exact hy2

theorem maxlE_gamma_push (G : GrafoDirigido) (Γ orden : List ℕ) (u x : ℕ)
    (h : MaxlE G Γ orden x) : MaxlE G (u :: Γ) orden x := by
  obtain ⟨⟨g, hg, hxg, hgx⟩, hys⟩ := h
  refine ⟨⟨g, List.mem_cons_of_mem u hg, hxg, hgx⟩, ?_⟩
  intro y hy
  rcases hys y hy with h1 | ⟨g2, ⟨hg2, hxg2, hg2x⟩, hg2y⟩
  · exact Or.inl h1
  · exact Or.inr ⟨g2, ⟨List.mem_cons_of_mem u hg2, hxg2, hg2x⟩, hg2y⟩

theorem push_inv (G : GrafoDirigido) (Γ : List ℕ) (st : K1St) (u : ℕ)
    (hinv : K1Inv G Γ st) (hu : u ∉ st.visit)
    (hedge : Γ = [] ∨ ∃ g Γ2, Γ = g :: Γ2 ∧ Edge G g u) :
    K1Inv G (u :: Γ) { st with visit := insert u st.visit } := by
  have hgam_sub : ∀ x ∈ Γ, x ∈ st.visit := by
    intro x hx
    rw [hinv.visit_eq]
    exact Finset.mem_union_right _ (List.mem_toFinset.mpr hx)
  have hord_sub : ∀ x ∈ st.orden, x ∈ st.visit := by
    intro x hx
    rw [hinv.visit_eq]
    exact Finset.mem_union_left _ (List.mem_toFinset.mpr hx)
  constructor
  · show insert u st.visit = st.orden.toFinset ∪ (u :: Γ).toFinset
    rw [hinv.visit_eq, List.toFinset_cons, Finset.union_insert]
  · exact hinv.orden_nodup
  · exact List.Nodup.cons (fun hmem => hu (hgam_sub u hmem)) hinv.gamma_nodup
  · intro x hx
    rcases List.mem_cons.mp hx with rfl | hx2
    · exact fun hmem => hu (hord_sub x hmem)
    · exact hinv.gamma_disj x hx2
  · rcases hedge with rfl | ⟨g, Γ2, rfl, hge⟩
    · exact List.chain'_singleton u
    · exact List.chain'_cons.mpr ⟨hge, hinv.chain⟩
  · intro x hx p hp
    exact Finset.mem_insert_of_mem (hinv.fc x hx p hp)
  · intro x hx
    rcases hinv.maxl x hx with h | h
    · exact Or.inl h
    · exact Or.inr (maxlE_gamma_push G Γ st.orden u x h)

theorem idx_le_last (l : List ℕ) (u : ℕ) (hu : u ∉ l) :
    ∀ y ∈ l ++ [u], (l ++ [u]).indexOf y ≤ (l ++ [u]).indexOf u := by
  intro y hy
  have hui : (l ++ [u]).indexOf u = l.length := by
    rw [indexOf_append_notMem l [u] u hu]
    simp
  rcases List.mem_append.mp hy with h | h
  · rw [hui, List.indexOf_append_of_mem h]
    exact le_of_lt (List.indexOf_lt_length.mpr h)
  · rcases List.mem_singleton.mp h with rfl
    exact le_refl _

set_option maxHeartbeats 1000000 in
theorem finish_inv (G : GrafoDirigido) (Γ : List ℕ) (st : K1St) (u : ℕ)
    (hinv : K1Inv G (u :: Γ) st)
    (hcov : ∀ p ∈ G.vecinos u, p.1 ∈ st.visit) :
    K1Inv G Γ { st with orden := st.orden ++ [u] } := by
  have hu_not_ord : u ∉ st.orden := hinv.gamma_disj u (List.mem_cons_self u Γ)
  have hu_not_gam : u ∉ Γ := (List.nodup_cons.mp hinv.gamma_nodup).1
  have hgam_nodup : Γ.Nodup := (List.nodup_cons.mp hinv.gamma_nodup).2
  have hvis' : st.visit = (st.orden ++ [u]).toFinset ∪ Γ.toFinset := by
    rw [hinv.visit_eq, List.toFinset_append, List.toFinset_cons]
    ext a
    simp [or_assoc, or_comm, or_left_comm]
  have hnodup' : (st.orden ++ [u]).Nodup := by
    rw [List.nodup_append]
    refine ⟨hinv.orden_nodup, List.nodup_singleton u, ?_⟩
    intro a ha hb
    rcases List.mem_singleton.mp hb with rfl
    exact hu_not_ord ha
  have hfc' : ∀ x ∈ st.orden ++ [u], ∀ p ∈ G.vecinos x, p.1 ∈ st.visit := by
    intro x hx p hp
    rcases List.mem_append.mp hx with h | h
    · exact hinv.fc x h p hp
    · rcases List.mem_singleton.mp h with rfl
      exact hcov p hp
  have hsplit : ∀ x y, Reach G x y → x ∈ st.orden ++ [u] →
      y ∈ st.orden ++ [u] ∨ ∃ g ∈ Γ, Reach G x g ∧ Reach G g y :=
    path_split G (st.orden ++ [u]) Γ st.visit hvis' hfc'
  have hchain_u : ∀ g ∈ u :: Γ, Reach G g u := chain_reach G Γ u hinv.chain
  have hidx_le : ∀ y ∈ st.orden ++ [u],
      (st.orden ++ [u]).indexOf y ≤ (st.orden ++ [u]).indexOf u :=
    idx_le_last st.orden u hu_not_ord
  have hmem_u : u ∈ st.orden ++ [u] := List.mem_append_right _ (List.mem_singleton.mpr rfl)
  have hmaxl' : ∀ x ∈ st.orden ++ [u],
      MaxlD G (st.orden ++ [u]) x ∨ MaxlE G Γ (st.orden ++ [u]) x := by
    by_cases hug : ∃ g ∈ Γ, Reach G u g
    · have huE : MaxlE G Γ (st.orden ++ [u]) u := by
        obtain ⟨g0, hg0, hug0⟩ := hug
        refine ⟨⟨g0, hg0, hug0, hchain_u g0 (List.mem_cons_of_mem u hg0)⟩, ?_⟩
        intro y hy
        rcases hsplit u y hy hmem_u with h | ⟨g, hg, hug2, hgy⟩
        · exact Or.inl h
        · exact Or.inr ⟨g, ⟨hg, hug2, hchain_u g (List.mem_cons_of_mem u hg)⟩, hgy⟩
      intro x hx
      rcases List.mem_append.mp hx with hxo | hxu
      · rcases hinv.maxl x hxo with hD | hE
        · exact Or.inl (maxlD_extend G st.orden [u] x hD)
        · obtain ⟨⟨a, haG, hxa, hax⟩, hys⟩ := hE
          have hanchor : ∃ g, EscAnchor G Γ x g := by
            rcases List.mem_cons.mp haG with rfl | ha2
            · obtain ⟨⟨g0, hg0, hug0, hg0u⟩, _⟩ := huE
              exact ⟨g0, hg0, hxa.trans hug0, hg0u.trans hax⟩
            · exact ⟨a, ha2, hxa, hax⟩
          refine Or.inr ⟨hanchor, ?_⟩
          intro y hy
          rcases hys y hy with h1 | ⟨g, ⟨hgGu, hxg, hgx⟩, hgy⟩
          · exact Or.inl (List.mem_append_left _ h1)
          · rcases List.mem_cons.mp hgGu with rfl | hg2
            · rcases hsplit g y hgy hmem_u with h2 | ⟨g2, hg2, hug2, hg2y⟩
              · exact Or.inl h2
              · exact Or.inr ⟨g2, ⟨hg2, hxg.trans hug2,
                  (hchain_u g2 (List.mem_cons_of_mem _ hg2)).trans hgx⟩, hg2y⟩
            · exact Or.inr ⟨g, ⟨hg2, hxg, hgx⟩, hgy⟩
      · rcases List.mem_singleton.mp hxu with rfl
        exact Or.inr huE
    · have hdomu : ∀ y, Reach G u y →
          y ∈ st.orden ++ [u] ∧
            (st.orden ++ [u]).indexOf y ≤ (st.orden ++ [u]).indexOf u := by
        intro y hy
        rcases hsplit u y hy hmem_u with h | ⟨g, hg, hug2, _⟩
        · exact ⟨h, hidx_le y h⟩
        · exact absurd ⟨g, hg, hug2⟩ hug
      have huD : MaxlD G (st.orden ++ [u]) u :=
        ⟨u, hmem_u, ⟨Relation.ReflTransGen.refl, Relation.ReflTransGen.refl⟩, hdomu⟩
      intro x hx
      rcases List.mem_append.mp hx with hxo | hxu
      · rcases hinv.maxl x hxo with hD | hE
        · exact Or.inl (maxlD_extend G st.orden [u] x hD)
        · obtain ⟨⟨a, haG, hxa, hax⟩, hys⟩ := hE
          by_cases hanc : ∃ g ∈ Γ, Reach G x g ∧ Reach G g x
          · obtain ⟨g1, hg1, hxg1, hg1x⟩ := hanc
            refine Or.inr ⟨⟨g1, hg1, hxg1, hg1x⟩, ?_⟩
            intro y hy
            rcases hys y hy with h1 | ⟨g, ⟨hgGu, hxg, hgx⟩, hgy⟩
            · exact Or.inl (List.mem_append_left _ h1)
            · rcases List.mem_cons.mp hgGu with rfl | hg2
              · exact Or.inl (hdomu y hgy).1
              · exact Or.inr ⟨g, ⟨hg2, hxg, hgx⟩, hgy⟩
          · have hau : a = u := by
              rcases List.mem_cons.mp haG with rfl | ha2
              · rfl
              · exact absurd ⟨a, ha2, hxa, hax⟩ hanc
            subst hau
            refine Or.inl ⟨a, hmem_u, ⟨hxa, hax⟩, ?_⟩
            intro y hy
            rcases hys y hy with h1 | ⟨g, ⟨hgGu, hxg, hgx⟩, hgy⟩
            · exact ⟨List.mem_append_left _ h1,
                hidx_le y (List.mem_append_left _ h1)⟩
            · rcases List.mem_cons.mp hgGu with rfl | hg2
              · exact hdomu y hgy
              · exact absurd ⟨g, hg2, hxg, hgx⟩ hanc
      · rcases List.mem_singleton.mp hxu with rfl
        exact Or.inl huD
  exact
    { visit_eq := hvis'
      orden_nodup := hnodup'
      gamma_nodup := hgam_nodup
      gamma_disj := fun x hx => by
        intro hmem
        rcases List.mem_append.mp hmem with h | h
        · exact hinv.gamma_disj x (List.mem_cons_of_mem u hx) h
        · rcases List.mem_singleton.mp h with rfl
          exact hu_not_gam hx
      chain := hinv.chain.tail
      fc := hfc'
      maxl := hmaxl' }

theorem dfs1Go_spec (G : GrafoDirigido) (f : ℕ → K1St → Option K1St)
    (u0 : ℕ) (G0 : List ℕ)
    (hf : ∀ v st st', f v st = some st' → K1Inv G (u0 :: G0) st →
      (∀ x ∈ st.visit, x ∈ G.nodosIds) → v ∉ st.visit → v ∈ G.nodosIds →
      Edge G u0 v →
      K1Inv G (u0 :: G0) st' ∧ (∀ x ∈ st'.visit, x ∈ G.nodosIds) ∧
      ∃ δ, st'.orden = st.orden ++ δ ∧ st'.visit = st.visit ∪ δ.toFinset ∧
        (∀ x ∈ δ, x ∉ st.visit) ∧ v ∈ δ)
    (hclosed : ∀ u ∈ G.nodosIds, ∀ p ∈ G.vecinos u, p.1 ∈ G.nodosIds)
    (hu0 : u0 ∈ G.nodosIds) :
    ∀ (l : List (ℕ × ℚ)) (st st' : K1St),
      dfs1Go f l st = some st' →
      K1Inv G (u0 :: G0) st →
      (∀ x ∈ st.visit, x ∈ G.nodosIds) →
      (∀ p ∈ l, p ∈ G.vecinos u0) →
      K1Inv G (u0 :: G0) st' ∧ (∀ x ∈ st'.visit, x ∈ G.nodosIds) ∧
      (∀ p ∈ l, p.1 ∈ st'.visit) ∧
      ∃ δ, st'.orden = st.orden ++ δ ∧ st'.visit = st.visit ∪ δ.toFinset ∧
        (∀ x ∈ δ, x ∉ st.visit) := by
  intro l
  induction l with
  | nil =>
    intro st st' h hinv hnodes _
    cases h
    refine ⟨hinv, hnodes, ?_, [], by simp, by simp, ?_⟩
    · intro p hp
      cases hp
    · intro x hx
      cases hx
  | cons p rest ih =>
    intro st st' h hinv hnodes hl
    obtain ⟨v, w⟩ := p
    have hvedge : (v, w) ∈ G.vecinos u0 := hl (v, w) (List.mem_cons_self _ _)
    have hvnode : v ∈ G.nodosIds := hclosed u0 hu0 (v, w) hvedge
    by_cases hv : v ∈ st.visit
    · rw [show dfs1Go f ((v, w) :: rest) st = dfs1Go f rest st by
        simp only [dfs1Go, if_pos hv]] at h
      obtain ⟨hinv2, hnodes2, hcov2, δ, ho, hvis, hfresh⟩ :=
        ih st st' h hinv hnodes (fun q hq => hl q (List.mem_cons_of_mem _ hq))
      refine ⟨hinv2, hnodes2, ?_, δ, ho, hvis, hfresh⟩
      intro q hq
      rcases List.mem_cons.mp hq with rfl | hq2
      · rw [hvis]
        exact Finset.mem_union_left _ hv
      · exact hcov2 q hq2
    · rw [show dfs1Go f ((v, w) :: rest) st =
          (match f v st with
            | none => none
            | some st2 => dfs1Go f rest st2) by
        simp only [dfs1Go, if_neg hv]
        try rfl] at h
      rcases hfv : f v st with _ | st2
      · rw [hfv] at h
        cases h
      · rw [hfv] at h
        obtain ⟨hinv2, hnodes2, δ1, ho1, hvis1, hfresh1, hvδ1⟩ :=
          hf v st st2 hfv hinv hnodes hv hvnode ⟨w, hvedge⟩
        obtain ⟨hinv3, hnodes3, hcov3, δ2, ho2, hvis2, hfresh2⟩ :=
          ih st2 st' h hinv2 hnodes2 (fun q hq => hl q (List.mem_cons_of_mem _ hq))
        refine ⟨hinv3, hnodes3, ?_, δ1 ++ δ2, ?_, ?_, ?_⟩
        · intro q hq
          rcases List.mem_cons.mp hq with rfl | hq2
          · rw [hvis2]
            apply Finset.mem_union_left
            rw [hvis1]
            exact Finset.mem_union_right _ (List.mem_toFinset.mpr hvδ1)
          · exact hcov3 q hq2
        · rw [ho2, ho1, List.append_assoc]
        · rw [hvis2, hvis1, List.toFinset_append, Finset.union_assoc]
        · intro x hx
          rcases List.mem_append.mp hx with h1 | h2
          · exact hfresh1 x h1
          · intro hxv
            apply hfresh2 x h2
            rw [hvis1]
            exact Finset.mem_union_left _ hxv

theorem dfs1F_spec (G : GrafoDirigido)
    (hclosed : ∀ u ∈ G.nodosIds, ∀ p ∈ G.vecinos u, p.1 ∈ G.nodosIds) :
    ∀ (fuel : ℕ) (u : ℕ) (st st' : K1St) (Γ : List ℕ),
      dfs1F G fuel u st = some st' →
      K1Inv G Γ st →
      (∀ x ∈ st.visit, x ∈ G.nodosIds) →
      u ∉ st.visit → u ∈ G.nodosIds →
      (Γ = [] ∨ ∃ g Γ2, Γ = g :: Γ2 ∧ Edge G g u) →
      K1Inv G Γ st' ∧ (∀ x ∈ st'.visit, x ∈ G.nodosIds) ∧
      ∃ δ, st'.orden = st.orden ++ δ ∧ st'.visit = st.visit ∪ δ.toFinset ∧
        (∀ x ∈ δ, x ∉ st.visit) ∧ u ∈ δ := by
  intro fuel
  induction fuel with
  | zero =>
    intro u st st' Γ h
    exact absurd h (by intro hc; exact Option.noConfusion hc)
  | succ fuel ih =>
    intro u st st' Γ h hinv hnodes hu hunode hedge
    rw [show dfs1F G (fuel + 1) u st =
        (match dfs1Go (dfs1F G fuel) (G.vecinos u)
            { st with visit := insert u st.visit } with
          | none => none
          | some st2 => some { st2 with orden := st2.orden ++ [u] }) from rfl] at h
    rcases hgo : dfs1Go (dfs1F G fuel) (G.vecinos u)
        { st with visit := insert u st.visit } with _ | st2
    · rw [hgo] at h
      cases h
    · rw [hgo] at h
      have hst' : st' = { st2 with orden := st2.orden ++ [u] } :=
        (Option.some_inj.mp h).symm
      subst hst'
      have hinv1 : K1Inv G (u :: Γ) { st with visit := insert u st.visit } :=
        push_inv G Γ st u hinv hu hedge
      have hnodes1 : ∀ x ∈ ({ st with visit := insert u st.visit } : K1St).visit,
          x ∈ G.nodosIds := by
        intro x hx
        rcases Finset.mem_insert.mp hx with rfl | h2
        · exact hunode
        · exact hnodes x h2
      have hfspec : ∀ (v : ℕ) (s s' : K1St), dfs1F G fuel v s = some s' →
          K1Inv G (u :: Γ) s → (∀ x ∈ s.visit, x ∈ G.nodosIds) →
          v ∉ s.visit → v ∈ G.nodosIds → Edge G u v →
          K1Inv G (u :: Γ) s' ∧ (∀ x ∈ s'.visit, x ∈ G.nodosIds) ∧
          ∃ δ, s'.orden = s.orden ++ δ ∧ s'.visit = s.visit ∪ δ.toFinset ∧
            (∀ x ∈ δ, x ∉ s.visit) ∧ v ∈ δ := by
        intro v s s' hf hinvS hnodesS hvS hvnode hedge2
        exact ih v s s' (u :: Γ) hf hinvS hnodesS hvS hvnode
          (Or.inr ⟨u, Γ, rfl, hedge2⟩)
      obtain ⟨hinv2, hnodes2, hcov2, δgo, ho, hvis, hfresh⟩ :=
        dfs1Go_spec G (dfs1F G fuel) u Γ hfspec hclosed hunode (G.vecinos u) _ st2
          hgo hinv1 hnodes1 (fun p hp => hp)
      have hfin := finish_inv G Γ st2 u hinv2 (fun p hp => hcov2 p hp)
      refine ⟨hfin, hnodes2, δgo ++ [u], ?_, ?_, ?_, ?_⟩
      · show st2.orden ++ [u] = st.orden ++ (δgo ++ [u])
        rw [ho]
        show (st.orden ++ δgo) ++ [u] = st.orden ++ (δgo ++ [u])
        rw [List.append_assoc]
      · show st2.visit = st.visit ∪ (δgo ++ [u]).toFinset
        rw [hvis]
        show insert u st.visit ∪ δgo.toFinset = st.visit ∪ (δgo ++ [u]).toFinset
        rw [List.toFinset_append]
        ext a
        simp only [Finset.mem_union, Finset.mem_insert, List.toFinset_cons,
          List.mem_toFinset, List.mem_singleton]
        tauto
      · intro x hx
        rcases List.mem_append.mp hx with h1 | h2
        · intro hxv
          exact hfresh x h1 (Finset.mem_insert_of_mem hxv)
        · rcases List.mem_singleton.mp h2 with rfl
          exact hu
      · exact List.mem_append_right _ (List.mem_singleton.mpr rfl)

theorem fase1_fold (G : GrafoDirigido)
    (hclosed : ∀ u ∈ G.nodosIds, ∀ p ∈ G.vecinos u, p.1 ∈ G.nodosIds)
    (fuel : ℕ) : ∀ (ids : List ℕ) (st st1 : K1St),
    ids.foldlM (fun s u => if u ∈ s.visit then some s else dfs1F G fuel u s) st =
      some st1 →
    (∀ u ∈ ids, u ∈ G.nodosIds) →
    K1Inv G [] st → (∀ x ∈ st.visit, x ∈ G.nodosIds) →
    K1Inv G [] st1 ∧ (∀ x ∈ st1.visit, x ∈ G.nodosIds) ∧
    (∀ x ∈ st.visit, x ∈ st1.visit) ∧ ∀ u ∈ ids, u ∈ st1.visit := by
  intro ids
  induction ids with
  | nil =>
    intro st st1 h _ hinv hnodes
    replace h : st = st1 := Option.some_inj.mp h
    subst h
    exact ⟨hinv, hnodes, fun x hx => hx, fun u hu => absurd hu (List.not_mem_nil u)⟩
  | cons u rest ihl =>
    intro st st1 h hids hinv hnodes
    by_cases hu : u ∈ st.visit
    · simp only [List.foldlM_cons, if_pos hu] at h
      replace h : rest.foldlM
          (fun s u => if u ∈ s.visit then some s else dfs1F G fuel u s) st =
          some st1 := h
      obtain ⟨hinv2, hnodes2, hsub2, hrest2⟩ := ihl st st1 h
        (fun q hq => hids q (List.mem_cons_of_mem _ hq)) hinv hnodes
      refine ⟨hinv2, hnodes2, hsub2, ?_⟩
      intro q hq
      rcases List.mem_cons.mp hq with rfl | hq2
      · exact hsub2 q hu
      · exact hrest2 q hq2
    · simp only [List.foldlM_cons, if_neg hu] at h
      rcases hf : dfs1F G fuel u st with _ | st2
      · rw [hf] at h
        simp at h
      · rw [hf] at h
        replace h : rest.foldlM
            (fun s u => if u ∈ s.visit then some s else dfs1F G fuel u s) st2 =
            some st1 := h
        obtain ⟨hinv2, hnodes2, δ, _, hvis2, _, huδ⟩ :=
          dfs1F_spec G hclosed fuel u st st2 [] hf hinv hnodes hu
            (hids u (List.mem_cons_self _ _)) (Or.inl rfl)
        obtain ⟨hinv3, hnodes3, hsub3, hrest3⟩ := ihl st2 st1 h
          (fun q hq => hids q (List.mem_cons_of_mem _ hq)) hinv2 hnodes2
        have hsub2 : ∀ x ∈ st.visit, x ∈ st2.visit := by
          intro x hx
          rw [hvis2]
          exact Finset.mem_union_left _ hx
        refine ⟨hinv3, hnodes3, fun x hx => hsub3 x (hsub2 x hx), ?_⟩
        intro q hq
        rcases List.mem_cons.mp hq with rfl | hq2
        · apply hsub3
          rw [hvis2]
          exact Finset.mem_union_right _ (List.mem_toFinset.mpr huδ)
        · exact hrest3 q hq2

theorem fase1_spec (G : GrafoDirigido)
    (hclosed : ∀ u ∈ G.nodosIds, ∀ p ∈ G.vecinos u, p.1 ∈ G.nodosIds)
    (fuel : ℕ) (st1 : K1St) (h : fase1 G fuel = some st1) :
    K1Inv G [] st1 ∧ (∀ x ∈ st1.visit, x ∈ G.nodosIds) ∧
    ∀ u ∈ G.nodosIds, u ∈ st1.visit := by
  have hinit : K1Inv G [] (⟨∅, []⟩ : K1St) := by
    refine ⟨by simp, List.nodup_nil, List.nodup_nil, ?_, List.chain'_nil, ?_, ?_⟩
    · intro x hx
      cases hx
    · intro x hx
      cases hx
    · intro x hx
      cases hx
  obtain ⟨hinv, hnodes, _, hcov⟩ := fase1_fold G hclosed fuel G.nodosIds ⟨∅, []⟩ st1 h
    (fun u hu => hu) hinit (by intro x hx; cases hx)
  exact ⟨hinv, hnodes, hcov⟩

theorem gt_inner (u : ℕ) :
    ∀ (l : List (ℕ × ℚ)) (GT : List (ℕ × List ℕ)) (v x : ℕ),
    x ∈ gtGet (l.foldl (fun GT2 vw => dappend GT2 vw.1 u) GT) v ↔
      x ∈ gtGet GT v ∨ (x = u ∧ ∃ w, (v, w) ∈ l) := by
  intro l
  induction l with
  | nil =>
    intro GT v x
    simp
  | cons p rest ih =>
    obtain ⟨a, b⟩ := p
    intro GT v x
    rw [List.foldl_cons, ih]
    have hdg : gtGet (dappend GT a u) v =
        if v = a then gtGet GT v ++ [u] else gtGet GT v := by
      unfold gtGet
      rw [lookup_dappend]
      by_cases hv : v = a
      · rw [if_pos hv, if_pos hv, hv]
        rfl
      · rw [if_neg hv, if_neg hv]
    rw [hdg]
    by_cases hv : v = a
    · subst hv
      rw [if_pos rfl]
      constructor
      · rintro (h1 | ⟨rfl, w, hw⟩)
        · rcases List.mem_append.mp h1 with ha | hb
          · exact Or.inl ha
          · rcases List.mem_singleton.mp hb with rfl
            exact Or.inr ⟨rfl, b, List.mem_cons_self _ _⟩
        · exact Or.inr ⟨rfl, w, List.mem_cons_of_mem _ hw⟩
      · rintro (h1 | ⟨rfl, w, hw⟩)
        · exact Or.inl (List.mem_append_left _ h1)
        · rcases List.mem_cons.mp hw with heq | h2
          · exact Or.inl (List.mem_append_right _ (List.mem_singleton.mpr rfl))
          · exact Or.inr ⟨rfl, w, h2⟩
    · rw [if_neg hv]
      constructor
      · rintro (h1 | ⟨rfl, w, hw⟩)
        · exact Or.inl h1
        · exact Or.inr ⟨rfl, w, List.mem_cons_of_mem _ hw⟩
      · rintro (h1 | ⟨rfl, w, hw⟩)
        · exact Or.inl h1
        · rcases List.mem_cons.mp hw with heq | h2
          · exact absurd (congrArg Prod.fst heq) hv
          · exact Or.inr ⟨rfl, w, h2⟩

theorem gt_outer (G : GrafoDirigido) :
    ∀ (ids : List ℕ) (GT : List (ℕ × List ℕ)) (v x : ℕ),
    x ∈ gtGet (ids.foldl (fun GT1 u => (G.vecinos u).foldl
      (fun GT2 vw => dappend GT2 vw.1 u) GT1) GT) v ↔
      x ∈ gtGet GT v ∨ ∃ u ∈ ids, x = u ∧ ∃ w, (v, w) ∈ G.vecinos u := by
  intro ids
  induction ids with
  | nil =>
    intro GT v x
    simp
  | cons u rest ih =>
    intro GT v x
    rw [List.foldl_cons, ih, gt_inner]
    constructor
    · rintro ((h1 | ⟨heq2, w, hw⟩) | ⟨u2, hu2, heq, w, hw⟩)
      · exact Or.inl h1
      · exact Or.inr ⟨u, List.mem_cons_self _ _, heq2, w, hw⟩
      · exact Or.inr ⟨u2, List.mem_cons_of_mem _ hu2, heq, w, hw⟩
    · rintro (h1 | ⟨u2, hu2, heq, w, hw⟩)
      · exact Or.inl (Or.inl h1)
      · rcases List.mem_cons.mp hu2 with rfl | h2
        · exact Or.inl (Or.inr ⟨heq, w, hw⟩)
        · exact Or.inr ⟨u2, h2, heq, w, hw⟩

theorem gt_mem (G : GrafoDirigido) (v x : ℕ) :
    x ∈ gtGet (transpuesto G) v ↔ x ∈ G.nodosIds ∧ Edge G x v := by
  unfold transpuesto
  rw [gt_outer]
  constructor
  · rintro (h1 | ⟨u, hu, heq, w, hw⟩)
    · simp [gtGet] at h1
    · subst heq
      exact ⟨hu, w, hw⟩
  · rintro ⟨hx, w, hw⟩
    exact Or.inr ⟨x, hx, rfl, w, hw⟩

/-- Reachability in the transpose adjacency avoiding a visited set:
every step lands on a transpose neighbor outside V. -/
inductive RAT (GT : List (ℕ × List ℕ)) (V : Finset ℕ) : ℕ → ℕ → Prop
  | refl (r : ℕ) : RAT GT V r r
  | tail {r y z : ℕ} : RAT GT V r y → z ∈ gtGet GT y → z ∉ V → RAT GT V r z

theorem RAT.mono (GT : List (ℕ × List ℕ)) (V V' : Finset ℕ) (hVV : V ⊆ V')
    (r y : ℕ) (h : RAT GT V' r y) : RAT GT V r y := by
  induction h with
  | refl => exact RAT.refl r
  | tail hr hz hzv ih => exact RAT.tail ih hz (fun hc => hzv (hVV hc))

theorem RAT.trans_rat (GT : List (ℕ × List ℕ)) (V : Finset ℕ) (r y z : ℕ)
    (h1 : RAT GT V r y) (h2 : RAT GT V y z) : RAT GT V r z := by
  induction h2 with
  | refl => exact h1
  | tail hr hz hzv ih => exact RAT.tail ih hz hzv

theorem RAT.to_reach (G : GrafoDirigido) (V : Finset ℕ) (r y : ℕ)
    (h : RAT (transpuesto G) V r y) : Reach G y r := by
  induction h with
  | refl => exact Relation.ReflTransGen.refl
  | tail hr hz hzv ih =>
    exact Relation.ReflTransGen.head ((gt_mem G _ _).mp hz).2 ih

theorem reach_to_rat (G : GrafoDirigido)
    (hclosed : ∀ u ∈ G.nodosIds, ∀ p ∈ G.vecinos u, p.1 ∈ G.nodosIds) :
    ∀ (q r : ℕ), Reach G q r →
    q ∈ G.nodosIds → RAT (transpuesto G) ∅ r q := by
  intro q r h
  induction h using Relation.ReflTransGen.head_induction_on with
  | refl => intro _; exact RAT.refl r
  | @head a c hedge htail ih =>
    intro ha
    rcases hedge with ⟨w, hw⟩
    have hc : c ∈ G.nodosIds := hclosed a ha (c, w) hw
    exact RAT.tail (ih hc) ((gt_mem G c a).mpr ⟨ha, w, hw⟩) (Finset.not_mem_empty a)

theorem rat_split (GT : List (ℕ × List ℕ)) (V : Finset ℕ) (r q : ℕ)
    (h : RAT GT ∅ r q) :
    RAT GT V r q ∨ ∃ p ∈ V, RAT GT ∅ r p ∧ RAT GT ∅ p q := by
  induction h with
  | refl => exact Or.inl (RAT.refl r)
  | @tail y z hry hz hzv ih =>
    by_cases hzV : z ∈ V
    · exact Or.inr ⟨z, hzV, RAT.tail hry hz hzv, RAT.refl z⟩
    · rcases ih with h1 | ⟨p, hp, h2, h3⟩
      · exact Or.inl (RAT.tail h1 hz hzV)
      · exact Or.inr ⟨p, hp, h2, RAT.tail h3 hz hzv⟩

theorem dfs2Go_spec (G : GrafoDirigido) (GT : List (ℕ × List ℕ))
    (f : ℕ → K2St → Option K2St)
    (hf : ∀ v s s', f v s = some s' → v ∉ s.visit → v ∈ G.nodosIds →
      ∃ δ, s'.comp = s.comp ++ δ ∧ s'.visit = s.visit ∪ δ.toFinset ∧ δ.Nodup ∧
        (∀ x ∈ δ, x ∉ s.visit) ∧ v ∈ δ ∧
        (∀ x ∈ δ, RAT GT s.visit v x) ∧
        (∀ x ∈ δ, x ∈ G.nodosIds) ∧
        (∀ x ∈ δ, ∀ z ∈ gtGet GT x, z ∈ s'.visit)) :
    ∀ (l : List ℕ) (s s' : K2St),
      dfs2Go f l s = some s' →
      (∀ w ∈ l, w ∈ G.nodosIds) →
      ∃ δ, s'.comp = s.comp ++ δ ∧ s'.visit = s.visit ∪ δ.toFinset ∧ δ.Nodup ∧
        (∀ x ∈ δ, x ∉ s.visit) ∧
        (∀ x ∈ δ, ∃ w ∈ l, w ∉ s.visit ∧ RAT GT s.visit w x) ∧
        (∀ x ∈ δ, x ∈ G.nodosIds) ∧
        (∀ x ∈ δ, ∀ z ∈ gtGet GT x, z ∈ s'.visit) ∧
        (∀ w ∈ l, w ∈ s'.visit) := by
  intro l
  induction l with
  | nil =>
    intro s s' h _
    replace h : s = s' := Option.some_inj.mp h
    subst h
    refine ⟨[], by simp, by simp, List.nodup_nil, ?_, ?_, ?_, ?_, ?_⟩
    · intro x hx
      cases hx
    · intro x hx
      cases hx
    · intro x hx
      cases hx
    · intro x hx
      cases hx
    · intro w hw
      cases hw
  | cons w rest ih =>
    intro s s' h hl
    have hwnode : w ∈ G.nodosIds := hl w (List.mem_cons_self _ _)
    by_cases hw : w ∈ s.visit
    · rw [show dfs2Go f (w :: rest) s = dfs2Go f rest s by
        simp only [dfs2Go, if_pos hw]] at h
      obtain ⟨δ, hc, hv, hn, hfr, hrat, hnd, hcl, hcov⟩ :=
        ih s s' h (fun q hq => hl q (List.mem_cons_of_mem _ hq))
      refine ⟨δ, hc, hv, hn, hfr, ?_, hnd, hcl, ?_⟩
      · intro x hx
        obtain ⟨w2, hw2, hw2v, hw2r⟩ := hrat x hx
        exact ⟨w2, List.mem_cons_of_mem _ hw2, hw2v, hw2r⟩
      · intro q hq
        rcases List.mem_cons.mp hq with rfl | hq2
        · rw [hv]
          exact Finset.mem_union_left _ hw
        · exact hcov q hq2
    · rw [show dfs2Go f (w :: rest) s =
          (match f w s with
            | none => none
            | some s2 => dfs2Go f rest s2) by
        simp only [dfs2Go, if_neg hw]
        try rfl] at h
      rcases hfw : f w s with _ | s2
      · rw [hfw] at h
        cases h
      · rw [hfw] at h
        obtain ⟨δ1, hc1, hv1, hn1, hfr1, hwδ1, hrat1, hnd1, hcl1⟩ :=
          hf w s s2 hfw hw hwnode
        obtain ⟨δ2, hc2, hv2, hn2, hfr2, hrat2, hnd2, hcl2, hcov2⟩ :=
          ih s2 s' h (fun q hq => hl q (List.mem_cons_of_mem _ hq))
        have hsub12 : ∀ x ∈ s.visit, x ∈ s2.visit := by
          intro x hx
          rw [hv1]
          exact Finset.mem_union_left _ hx
        refine ⟨δ1 ++ δ2, ?_, ?_, ?_, ?_, ?_, ?_, ?_, ?_⟩
        · rw [hc2, hc1, List.append_assoc]
        · rw [hv2, hv1, List.toFinset_append, Finset.union_assoc]
        · rw [List.nodup_append]
          refine ⟨hn1, hn2, ?_⟩
          intro a ha hb
          apply hfr2 a hb
          rw [hv1]
          exact Finset.mem_union_right _ (List.mem_toFinset.mpr ha)
        · intro x hx
          rcases List.mem_append.mp hx with h1 | h2
          · exact hfr1 x h1
          · exact fun hc => hfr2 x h2 (hsub12 x hc)
        · intro x hx
          rcases List.mem_append.mp hx with h1 | h2
          · exact ⟨w, List.mem_cons_self _ _, hw, hrat1 x h1⟩
          · obtain ⟨w2, hw2, hw2v, hw2r⟩ := hrat2 x h2
            refine ⟨w2, List.mem_cons_of_mem _ hw2, fun hc => hw2v (hsub12 w2 hc),
              RAT.mono GT s.visit s2.visit ?_ w2 x hw2r⟩
            intro a ha
            exact hsub12 a ha
        · intro x hx
          rcases List.mem_append.mp hx with h1 | h2
          · exact hnd1 x h1
          · exact hnd2 x h2
        · intro x hx z hz
          rcases List.mem_append.mp hx with h1 | h2
          · have := hcl1 x h1 z hz
            rw [hv2]
            exact Finset.mem_union_left _ this
          · exact hcl2 x h2 z hz
        · intro q hq
          rcases List.mem_cons.mp hq with rfl | hq2
          · rw [hv2]
            apply Finset.mem_union_left
            rw [hv1]
            exact Finset.mem_union_right _ (List.mem_toFinset.mpr hwδ1)
          · exact hcov2 q hq2

theorem dfs2F_spec (G : GrafoDirigido) (GT : List (ℕ × List ℕ))
    (hGTn : ∀ y x, x ∈ gtGet GT y → x ∈ G.nodosIds) :
    ∀ (fuel : ℕ) (v : ℕ) (s s' : K2St),
      dfs2F GT fuel v s = some s' → v ∉ s.visit → v ∈ G.nodosIds →
      ∃ δ, s'.comp = s.comp ++ δ ∧ s'.visit = s.visit ∪ δ.toFinset ∧ δ.Nodup ∧
        (∀ x ∈ δ, x ∉ s.visit) ∧ v ∈ δ ∧
        (∀ x ∈ δ, RAT GT s.visit v x) ∧
        (∀ x ∈ δ, x ∈ G.nodosIds) ∧
        (∀ x ∈ δ, ∀ z ∈ gtGet GT x, z ∈ s'.visit) := by
  intro fuel
  induction fuel with
  | zero =>
    intro v s s' h
    exact absurd h (by intro hc; exact Option.noConfusion hc)
  | succ fuel ih =>
    intro v s s' h hv hvn
    replace h : dfs2Go (dfs2F GT fuel) (gtGet GT v)
        { visit := insert v s.visit, comp := s.comp ++ [v] } = some s' := h
    obtain ⟨δgo, hc, hvs, hn, hfr, hrat, hnd, hcl, hcov⟩ :=
      dfs2Go_spec G GT (dfs2F GT fuel)
        (fun v2 s2 s2' hf2 hv2 hv2n => ih v2 s2 s2' hf2 hv2 hv2n)
        (gtGet GT v) _ s' h (fun w hw => hGTn v w hw)
    refine ⟨v :: δgo, ?_, ?_, ?_, ?_, List.mem_cons_self _ _, ?_, ?_, ?_⟩
    · rw [hc]
      show (s.comp ++ [v]) ++ δgo = s.comp ++ v :: δgo
      rw [List.append_assoc]
      rfl
    · rw [hvs]
      show insert v s.visit ∪ δgo.toFinset = s.visit ∪ (v :: δgo).toFinset
      rw [List.toFinset_cons]
      ext a
      simp only [Finset.mem_union, Finset.mem_insert]
      tauto
    · refine List.nodup_cons.mpr ⟨?_, hn⟩
      intro hvδ
      exact hfr v hvδ (Finset.mem_insert_self v _)
    · intro x hx
      rcases List.mem_cons.mp hx with rfl | hx2
      · exact hv
      · exact fun hc2 => hfr x hx2 (Finset.mem_insert_of_mem hc2)
    · intro x hx
      rcases List.mem_cons.mp hx with rfl | hx2
      · exact RAT.refl x
      · obtain ⟨w, hwgt, hwv, hwr⟩ := hrat x hx2
        have hw_not : w ∉ s.visit := fun hc2 => hwv (Finset.mem_insert_of_mem hc2)
        have h1 : RAT GT s.visit v w := RAT.tail (RAT.refl v) hwgt hw_not
        have h2 : RAT GT s.visit w x :=
          RAT.mono GT s.visit _ (fun a ha => Finset.mem_insert_of_mem ha) w x hwr
        exact RAT.trans_rat GT s.visit v w x h1 h2
    · intro x hx
      rcases List.mem_cons.mp hx with rfl | hx2
      · exact hvn
      · exact hnd x hx2
    · intro x hx z hz
      rcases List.mem_cons.mp hx with rfl | hx2
      · exact hcov z hz
      · exact hcl x hx2 z hz

theorem dfs2_complete (GT : List (ℕ × List ℕ)) (V : Finset ℕ) (u : ℕ) (δ : List ℕ)
    (huδ : u ∈ δ)
    (hcl : ∀ x ∈ δ, ∀ z ∈ gtGet GT x, z ∈ V ∪ δ.toFinset) :
    ∀ y, RAT GT V u y → y ∈ δ := by
  intro y hy
  induction hy with
  | refl => exact huδ
  | @tail y2 z hr hz hzv ih =>
    rcases Finset.mem_union.mp (hcl y2 ih z hz) with h1 | h2
    · exact absurd h1 hzv
    · exact List.mem_toFinset.mp h2

theorem indexOf_get_nodup : ∀ (l : List ℕ), l.Nodup → ∀ (i : ℕ) (hi : i < l.length),
    l.indexOf (l.get ⟨i, hi⟩) = i := by
  intro l
  induction l with
  | nil =>
    intro _ i hi
    cases hi
  | cons a t ih =>
    intro hnd i hi
    cases i with
    | zero => simp
    | succ j =>
      have hj : j < t.length := Nat.lt_of_succ_lt_succ hi
      have hne : t.get ⟨j, hj⟩ ≠ a := by
        intro heq
        exact (List.nodup_cons.mp hnd).1 (heq ▸ List.get_mem t j hj)
      show (a :: t).indexOf (t.get ⟨j, hj⟩) = j + 1
      rw [List.indexOf_cons_ne _ (Ne.symm hne), ih (List.nodup_cons.mp hnd).2 j hj]

theorem indexOf_take : ∀ (l : List ℕ) (n : ℕ) (x : ℕ), x ∈ l.take n →
    l.indexOf x < n := by
  intro l
  induction l with
  | nil =>
    intro n x hx
    simp at hx
  | cons a t ih =>
    intro n x hx
    cases n with
    | zero => simp at hx
    | succ m =>
      rw [List.take_succ_cons] at hx
      by_cases hax : x = a
      · subst hax
        rw [List.indexOf_cons_self]
        exact Nat.succ_pos m
      · rcases List.mem_cons.mp hx with h1 | h2
        · exact absurd h1 hax
        · rw [List.indexOf_cons_ne _ (Ne.symm hax)]
          exact Nat.succ_lt_succ (ih m x h2)

theorem reach_nodes (G : GrafoDirigido)
    (hclosed : ∀ u ∈ G.nodosIds, ∀ p ∈ G.vecinos u, p.1 ∈ G.nodosIds) :
    ∀ a b, Reach G a b → a ∈ G.nodosIds → b ∈ G.nodosIds := by
  intro a b h
  induction h with
  | refl => exact fun h => h
  | tail hr he ih =>
    intro ha
    rcases he with ⟨w, hw⟩
    exact hclosed _ (ih ha) _ hw

/-- Invariant of the third Kosaraju pass. -/
structure K3Inv (G : GrafoDirigido) (V : Finset ℕ) (comps : List (List ℕ)) : Prop where
  vflat : V = comps.flatten.toFinset
  fnodup : comps.flatten.Nodup
  sound : ∀ c ∈ comps, ∀ p ∈ c, ∀ q ∈ c, Mutual G p q
  complete : ∀ c ∈ comps, ∀ p ∈ c, ∀ q, Mutual G p q → q ∈ c
  vnodes : ∀ x ∈ V, x ∈ G.nodosIds

set_option maxHeartbeats 1600000 in
theorem fase3_fold_main (G : GrafoDirigido) (fuel : ℕ) (orden : List ℕ)
    (hclosed : ∀ u ∈ G.nodosIds, ∀ p ∈ G.vecinos u, p.1 ∈ G.nodosIds)
    (hnodup : orden.Nodup) (hnodes : ∀ x ∈ orden, x ∈ G.nodosIds)
    (hcover : ∀ x ∈ G.nodosIds, x ∈ orden)
    (hmaxl : ∀ x ∈ orden, ∃ z ∈ orden, Mutual G x z ∧
      ∀ y, Reach G x y → y ∈ orden ∧ orden.indexOf y ≤ orden.indexOf z) :
    ∀ (k : ℕ), k ≤ orden.length → ∀ (V : Finset ℕ) (comps : List (List ℕ))
      (res : Finset ℕ × List (List ℕ)),
      ((orden.take k).reverse).foldlM
        (fun p u =>
          if u ∈ p.1 then some p
          else
            match dfs2F (transpuesto G) fuel u ⟨p.1, []⟩ with
            | none => none
            | some st => some (st.visit, p.2 ++ [st.comp])) (V, comps) = some res →
      K3Inv G V comps →
      (∀ x ∈ orden, x ∉ V → x ∈ orden.take k) →
      K3Inv G res.1 res.2 ∧ (∀ x ∈ orden, x ∈ res.1) ∧
      ∃ newc, res.2 = comps ++ newc := by
  intro k
  induction k with
  | zero =>
    intro _ V comps res h hinv hVinv
    replace h : (V, comps) = res := Option.some_inj.mp h
    subst h
    refine ⟨hinv, ?_, [], by simp⟩
    intro x hx
    by_contra hxV
    have h2 := hVinv x hx hxV
    simp at h2
  | succ k ih =>
    intro hk1 V comps res h hinv hVinv
    have hk : k < orden.length := Nat.lt_of_succ_le hk1
    set u := orden.get ⟨k, hk⟩ with hu_def
    have hu_mem : u ∈ orden := List.get_mem orden k hk
    have hidxu : orden.indexOf u = k := indexOf_get_nodup orden hnodup k hk
    have htake : orden.take (k + 1) = orden.take k ++ [u] := by
      rw [List.take_succ]
      congr
      rw [List.getElem?_eq_getElem hk]
      rfl
    have hrev : (orden.take (k + 1)).reverse = u :: (orden.take k).reverse := by
      rw [htake, List.reverse_append]
      rfl
    rw [hrev, List.foldlM_cons] at h
    by_cases huV : u ∈ V
    · simp only [if_pos huV] at h
      replace h : ((orden.take k).reverse).foldlM
          (fun p u =>
            if u ∈ p.1 then some p
            else
              match dfs2F (transpuesto G) fuel u ⟨p.1, []⟩ with
              | none => none
              | some st => some (st.visit, p.2 ++ [st.comp])) (V, comps) = some res := h
      apply ih (le_of_lt hk) V comps res h hinv
      intro x hx hxV
      rcases List.mem_append.mp (htake ▸ hVinv x hx hxV) with h1 | h2
      · exact h1
      · rcases List.mem_singleton.mp h2 with rfl
        exact absurd huV hxV
    · simp only [if_neg huV] at h
      rcases hdfs : dfs2F (transpuesto G) fuel u ⟨V, []⟩ with _ | st2
      · rw [hdfs] at h
        simp at h
      · rw [hdfs] at h
        replace h : ((orden.take k).reverse).foldlM
            (fun p u =>
              if u ∈ p.1 then some p
              else
                match dfs2F (transpuesto G) fuel u ⟨p.1, []⟩ with
                | none => none
                | some st => some (st.visit, p.2 ++ [st.comp]))
            (st2.visit, comps ++ [st2.comp]) = some res := h
        have hGTn : ∀ y x, x ∈ gtGet (transpuesto G) y → x ∈ G.nodosIds :=
          fun y x hx => ((gt_mem G y x).mp hx).1
        obtain ⟨δ, hc, hvs, hn, hfr, huδ, hrat, hnd, hcl⟩ :=
          dfs2F_spec G (transpuesto G) hGTn fuel u ⟨V, []⟩ st2 hdfs huV
            (hnodes u hu_mem)
        have hcomp : st2.comp = δ := by
          rw [hc]
          rfl
        have hmut_u : ∀ p ∈ δ, Mutual G p u := by
          intro p hpδ
          have hpu : Reach G p u := RAT.to_reach G V u p (hrat p hpδ)
          have hpord : p ∈ orden := hcover p (hnd p hpδ)
          obtain ⟨z, hzord, hmz, hdom⟩ := hmaxl p hpord
          obtain ⟨humem2, hidxle⟩ := hdom u hpu
          have hzV : z ∉ V := by
            intro hzV2
            rw [hinv.vflat] at hzV2
            obtain ⟨c, hcmem, hzc⟩ := List.mem_flatten.mp (List.mem_toFinset.mp hzV2)
            have hpV : p ∈ V := by
              rw [hinv.vflat]
              exact List.mem_toFinset.mpr (List.mem_flatten.mpr
                ⟨c, hcmem, hinv.complete c hcmem z hzc p ⟨hmz.2, hmz.1⟩⟩)
            exact hfr p hpδ hpV
          have hztake : z ∈ orden.take (k + 1) := hVinv z hzord hzV
          have hidxz : orden.indexOf z < k + 1 := indexOf_take orden (k + 1) z hztake
          have heq : orden.indexOf z = orden.indexOf u := by omega
          have hz_u : z = u := (List.indexOf_inj hzord hu_mem).mp heq
          rw [hz_u] at hmz
          exact hmz
        have hsound_δ : ∀ p ∈ δ, ∀ q ∈ δ, Mutual G p q := by
          intro p hp q hq
          obtain ⟨hpu, hup⟩ := hmut_u p hp
          obtain ⟨hqu, huq⟩ := hmut_u q hq
          exact ⟨hpu.trans huq, hqu.trans hup⟩
        have hcomplete_δ : ∀ p ∈ δ, ∀ q, Mutual G p q → q ∈ δ := by
          intro p hp q hmq
          obtain ⟨hpu, hup⟩ := hmut_u p hp
          have hqu : Reach G q u := hmq.2.trans hpu
          have huq : Reach G u q := hup.trans hmq.1
          have hqnode : q ∈ G.nodosIds :=
            reach_nodes G hclosed u q huq (hnodes u hu_mem)
          have hrat0 : RAT (transpuesto G) ∅ u q :=
            reach_to_rat G hclosed q u hqu hqnode
          rcases rat_split (transpuesto G) V u q hrat0 with hgood | ⟨pp, hppV, h1, h2⟩
          · refine dfs2_complete (transpuesto G) V u δ huδ ?_ q hgood
            intro x hx z hz
            have := hcl x hx z hz
            rw [hvs] at this
            exact this
          · exfalso
            have hppu : Reach G pp u := RAT.to_reach G ∅ u pp h1
            have hqpp : Reach G q pp := RAT.to_reach G ∅ pp q h2
            have hupp : Reach G u pp := huq.trans hqpp
            rw [hinv.vflat] at hppV
            obtain ⟨c, hcmem, hppc⟩ :=
              List.mem_flatten.mp (List.mem_toFinset.mp hppV)
            have huc : u ∈ c := hinv.complete c hcmem pp hppc u ⟨hppu, hupp⟩
            apply huV
            rw [hinv.vflat]
            exact List.mem_toFinset.mpr (List.mem_flatten.mpr ⟨c, hcmem, huc⟩)
        have hinv2 : K3Inv G st2.visit (comps ++ [st2.comp]) := by
          refine ⟨?_, ?_, ?_, ?_, ?_⟩
          · rw [hvs, hcomp, hinv.vflat, List.flatten_append]
            simp [List.toFinset_append]
          · rw [hcomp, List.flatten_append]
            rw [List.nodup_append]
            refine ⟨hinv.fnodup, by simpa using hn, ?_⟩
            intro a ha hb
            apply hfr a (by simpa using hb)
            show a ∈ V
            rw [hinv.vflat]
            exact List.mem_toFinset.mpr ha
          · intro c hcm
            rcases List.mem_append.mp hcm with h1 | h2
            · exact hinv.sound c h1
            · rcases List.mem_singleton.mp h2 with rfl
              rw [hcomp]
              exact hsound_δ
          · intro c hcm
            rcases List.mem_append.mp hcm with h1 | h2
            · exact hinv.complete c h1
            · rcases List.mem_singleton.mp h2 with rfl
              rw [hcomp]
              exact hcomplete_δ
          · intro x hx
            rw [hvs] at hx
            rcases Finset.mem_union.mp hx with h1 | h2
            · exact hinv.vnodes x h1
            · exact hnd x (List.mem_toFinset.mp h2)
        have hVinv2 : ∀ x ∈ orden, x ∉ st2.visit → x ∈ orden.take k := by
          intro x hx hxV
          have hxV0 : x ∉ V := by
            intro hc2
            apply hxV
            rw [hvs]
            exact Finset.mem_union_left _ hc2
          rcases List.mem_append.mp (htake ▸ hVinv x hx hxV0) with h1 | h2
          · exact h1
          · exfalso
            rcases List.mem_singleton.mp h2 with rfl
            apply hxV
            rw [hvs]
            exact Finset.mem_union_right _ (List.mem_toFinset.mpr huδ)
        obtain ⟨hinv3, hcov3, newc, hnewc⟩ := ih (le_of_lt hk) st2.visit
          (comps ++ [st2.comp]) res h hinv2 hVinv2
        refine ⟨hinv3, hcov3, [st2.comp] ++ newc, ?_⟩
        rw [hnewc, List.append_assoc]

theorem kosaraju_spec (G : GrafoDirigido) (fuel : ℕ) (comps : List (List ℕ))
    (hclosed : ∀ u ∈ G.nodosIds, ∀ p ∈ G.vecinos u, p.1 ∈ G.nodosIds)
    (hrun : kosarajuScc G fuel = some comps) :
    K3Inv G comps.flatten.toFinset comps ∧
    (∀ x ∈ G.nodosIds, x ∈ comps.flatten) ∧
    (∀ x ∈ comps.flatten, x ∈ G.nodosIds) := by
  unfold kosarajuScc at hrun
  rcases h1 : fase1 G fuel with _ | st1
  · rw [h1] at hrun
    cases hrun
  · rw [h1] at hrun
    replace hrun : (fase3 (transpuesto G) st1.orden fuel).map (fun x => x.2) =
        some comps := hrun
    rcases h3 : fase3 (transpuesto G) st1.orden fuel with _ | p
    · rw [h3] at hrun
      cases hrun
    · rw [h3] at hrun
      have hcomps : comps = p.2 := (Option.some_inj.mp hrun).symm
      subst hcomps
      obtain ⟨hinv1, hnodes1, hcov1⟩ := fase1_spec G hclosed fuel st1 h1
      have hvis_ord : ∀ x, x ∈ st1.visit ↔ x ∈ st1.orden := by
        intro x
        rw [hinv1.visit_eq]
        simp
      have hnodes : ∀ x ∈ st1.orden, x ∈ G.nodosIds :=
        fun x hx => hnodes1 x ((hvis_ord x).mpr hx)
      have hcover : ∀ x ∈ G.nodosIds, x ∈ st1.orden :=
        fun x hx => (hvis_ord x).mp (hcov1 x hx)
      have hmaxl : ∀ x ∈ st1.orden, ∃ z ∈ st1.orden, Mutual G x z ∧
          ∀ y, Reach G x y → y ∈ st1.orden ∧
            st1.orden.indexOf y ≤ st1.orden.indexOf z := by
        intro x hx
        rcases hinv1.maxl x hx with hD | hE
        · exact hD
        · obtain ⟨⟨g, hg, _⟩, _⟩ := hE
          cases hg
      unfold fase3 at h3
      rw [show st1.orden.reverse = (st1.orden.take st1.orden.length).reverse by
        rw [List.take_length]] at h3
      have hinit : K3Inv G ∅ [] := by
        refine ⟨by simp, List.nodup_nil, ?_, ?_, ?_⟩
        · intro c hc
          cases hc
        · intro c hc
          cases hc
        · intro x hx
          cases hx
      obtain ⟨hinv3, hcov3, _⟩ := fase3_fold_main G fuel st1.orden hclosed
        hinv1.orden_nodup hnodes hcover hmaxl st1.orden.length (le_refl _)
        ∅ [] p h3 hinit (by
          intro x hx _
          rw [List.take_length]
          exact hx)
      have hp1 : p.1 = p.2.flatten.toFinset := hinv3.vflat
      rw [hp1] at hinv3 hcov3
      refine ⟨hinv3, ?_, ?_⟩
      · intro x hx
        exact List.mem_toFinset.mp (hcov3 x (hcover x hx))
      · intro x hx
        exact hinv3.vnodes x (List.mem_toFinset.mpr hx)

/-- C1: on a graph whose node ids are distinct and whose edges stay
inside the node set, a completed kosaraju_scc run returns components
whose concatenation is a permutation of the node ids: every node appears
in exactly one component. -/
theorem kosaraju_partition (G : GrafoDirigido) (fuel : ℕ)
    (comps : List (List ℕ))
    (hnodup : G.nodosIds.Nodup)
    (hclosed : ∀ u ∈ G.nodosIds, ∀ p ∈ G.vecinos u, p.1 ∈ G.nodosIds)
    (hrun : kosarajuScc G fuel = some comps) :
    comps.flatten.Perm G.nodosIds := by
  obtain ⟨hinv, hcov, hsub⟩ := kosaraju_spec G fuel comps hclosed hrun
  apply List.perm_of_nodup_nodup_toFinset_eq hinv.fnodup hnodup
  ext a
  simp only [List.mem_toFinset]
  exact ⟨fun h => hsub a h, fun h => hcov a h⟩

/-- C2: on a graph whose edges stay inside the node set, any two nodes
of one component returned by kosaraju_scc reach each other along
directed edges, and for nodes in two different components mutual
reachability never holds. -/
theorem kosaraju_scc_mutual (G : GrafoDirigido) (fuel : ℕ)
    (comps : List (List ℕ))
    (hclosed : ∀ u ∈ G.nodosIds, ∀ p ∈ G.vecinos u, p.1 ∈ G.nodosIds)
    (hrun : kosarajuScc G fuel = some comps) :
    (∀ c ∈ comps, ∀ u ∈ c, ∀ v ∈ c, Reach G u v ∧ Reach G v u) ∧
    comps.Pairwise (fun c1 c2 => ∀ u ∈ c1, ∀ v ∈ c2,
      ¬ (Reach G u v ∧ Reach G v u)) := by
  obtain ⟨hinv, _, _⟩ := kosaraju_spec G fuel comps hclosed hrun
  refine ⟨hinv.sound, ?_⟩
  have hdisj := (List.nodup_flatten.mp hinv.fnodup).2
  have hmems := List.Pairwise.and_mem.mp hdisj
  refine hmems.imp ?_
  rintro c1 c2 ⟨hc1, hc2, hdisj12⟩ u hu v hv ⟨huv, hvu⟩
  exact hdisj12 (hinv.complete c1 hc1 u hu v ⟨huv, hvu⟩) hv

/-- The partition property instantiated on the concrete graph GW. -/
theorem kosaraju_partition_witness :
    ([[0], [1]] : List (List ℕ)).flatten.Perm GW.nodosIds :=
  kosaraju_partition GW 5 [[0], [1]] (by decide) (by decide) kosaraju_gw_eval

/-- The mutual-reachability property instantiated on the concrete graph
GW. -/
theorem kosaraju_scc_mutual_witness :
    (∀ c ∈ ([[0], [1]] : List (List ℕ)), ∀ u ∈ c, ∀ v ∈ c,
      Reach GW u v ∧ Reach GW v u) ∧
    ([[0], [1]] : List (List ℕ)).Pairwise (fun c1 c2 => ∀ u ∈ c1, ∀ v ∈ c2,
      ¬ (Reach GW u v ∧ Reach GW v u)) :=
  kosaraju_scc_mutual GW 5 [[0], [1]] (by decide) kosaraju_gw_eval
